import Mathlib

/-!
Verification development for the rest-shape library (src/src/index.ts):
a shallow embedding of its data model, query compiler and shaping engine,
followed by theorems settling the frozen claims about the specification.

Modelling conventions, stated once here:
* JavaScript values are modelled by the inductive type Value.  JS null and
  undefined are distinguished (vNull / vUndef) because the source code
  distinguishes them (the ?? operator, the !== undefined checks, the loose
  value != null checks).  Numbers are modelled as integers; the claims under
  verification never involve non-integers or NaN except through parseInt,
  which is modelled separately (JsNum below).
* JS objects are modelled as ordered association lists of own enumerable
  properties; property read is first-match lookup, property write updates in
  place or appends, mirroring JS insertion-order semantics.
* The source evaluates expression strings with the host JavaScript engine:
  Function("data", "root", "with(data){ with(root){ return EXPR } }") inside
  a try/catch that yields null.  A shallow embedding cannot contain the host
  engine, so the restricted expression sub-language actually exercised by
  queries (literals, identifiers, member and index access, comparisons,
  logical and additive operators) is embedded, with the scoping of the source
  reproduced exactly: the with(root) block is the inner one, so root
  properties shadow current-data properties; an unresolvable identifier or a
  member access on null/undefined is a thrown error, caught by the wrapper
  and turned into null; property lookup is over own properties.
-/

set_option maxHeartbeats 1000000
set_option maxRecDepth 4000

/-- Model of a JavaScript runtime value (see modelling conventions above). -/
inductive Value where
  | vNull
  | vUndef
  | vBool (b : Bool)
  | vNum (n : Int)
  | vStr (s : String)
  | vArr (elems : List Value)
  | vObj (fields : List (String × Value))
deriving Repr

open Value

/-- JS nullish test: the two values rejected by the ?? operator and by
loose comparison value != null. -/
def jsNullish : Value → Bool
  | vNull => true
  | vUndef => true
  | _ => false

/-- JS truthiness: false, 0, the empty string, null and undefined are falsy;
every object and array is truthy. -/
def jsTruthy : Value → Bool
  | vNull => false
  | vUndef => false
  | vBool b => b
  | vNum n => n ≠ 0
  | vStr s => s ≠ ""
  | vArr _ => true
  | vObj _ => true

/-- The JS nullish-coalescing operator a ?? b. -/
def vCoalesce (a b : Value) : Value :=
  if jsNullish a then b else a

/-- First-match lookup in an association list (JS property read order). -/
def objLookup (k : String) : List (String × Value) → Option Value
  | [] => none
  | (k', v) :: rest => if k' = k then some v else objLookup k rest

/-- JS property write: update the first occurrence in place, else append
(insertion order preserved, as in a JS object). -/
def objSet (k : String) (v : Value) : List (String × Value) → List (String × Value)
  | [] => [(k, v)]
  | (k', v') :: rest => if k' = k then (k, v) :: rest else (k', v') :: objSet k v rest

/-- Decimal rendering of a list index, for array property keys. -/
def idxKey (n : Nat) : String := toString n

/-- Parse a string as a canonical array index, the inverse of idxKey. -/
def keyIdx (s : String) : Option Nat :=
  if s ≠ "" ∧ s.toList.all Char.isDigit ∧ (s = "0" ∨ ¬ s.startsWith "0") then
    some s.toNat!
  else none

/-- JS property read v[k] returning undefined when the property is absent.
Arrays expose their elements under decimal index keys plus length; strings
expose length (and characters, not needed by any claim and omitted);
reads on other primitives yield undefined, as in JS. -/
def jsIndex (v : Value) (k : String) : Value :=
  match v with
  | vObj fs => (objLookup k fs).getD vUndef
  | vArr xs =>
      if k = "length" then vNum xs.length
      else match keyIdx k with
        | some i => (xs.get? i).getD vUndef
        | none => vUndef
  | vStr s => if k = "length" then vNum s.length else vUndef
  | _ => vUndef

/-- Own-property presence test (the HasProperty check used by with-scoping;
prototype-chain properties are not modelled). -/
def hasProp (v : Value) (k : String) : Bool :=
  match v with
  | vObj fs => (objLookup k fs).isSome
  | vArr xs => k = "length" || (match keyIdx k with | some i => i < xs.length | none => false)
  | vStr _ => k = "length"
  | _ => false

/-- JS word character, the regex class backslash-w. -/
def wordChar (c : Char) : Bool := c.isAlphanum || c = '_'

/-! Character-list implementations of the string operations the embedding
needs (trim, split, prefix and suffix tests, char search, digit parsing):
they mirror the library versions but compute by structural recursion over
the character list, so every concrete instance reduces inside the kernel. -/

def isWsChar (c : Char) : Bool := c.isWhitespace

def strTrim (s : String) : String :=
  ⟨((s.toList.dropWhile isWsChar).reverse.dropWhile isWsChar).reverse⟩

def strStartsWith (s pre : String) : Bool :=
  pre.toList.isPrefixOf s.toList

def strEndsWith (s suf : String) : Bool :=
  suf.toList.reverse.isPrefixOf s.toList.reverse

def strContainsChar (s : String) (c : Char) : Bool :=
  s.toList.contains c

def splitChars (c : Char) : List Char → List (List Char)
  | [] => [[]]
  | x :: r =>
      if x = c then [] :: splitChars c r
      else
        match splitChars c r with
        | h :: t => (x :: h) :: t
        | [] => [[x]]

/-- Split on a one-character separator (same semantics as JS split and
String.splitOn for these inputs, including the singleton [""] result on
the empty string). -/
def strSplitOnChar (c : Char) (s : String) : List String :=
  (splitChars c s.toList).map (fun l => (⟨l⟩ : String))

def splitStrAux (sep : List Char) : Nat → List Char → List Char → List (List Char)
  | 0, _, acc => [acc.reverse]
  | _ + 1, [], acc => [acc.reverse]
  | fuel + 1, cs@(x :: r), acc =>
      if sep.isPrefixOf cs then
        acc.reverse :: splitStrAux sep fuel (cs.drop sep.length) []
      else splitStrAux sep fuel r (x :: acc)

/-- Split on a non-empty multi-character separator, leftmost and
non-overlapping (JS split, String.splitOn). -/
def strSplitOnStr (sep : String) (s : String) : List String :=
  (splitStrAux sep.toList (s.length + 1) s.toList []).map (fun l => (⟨l⟩ : String))

def digitsToNat (ds : List Char) : Nat :=
  ds.foldl (fun n c => 10 * n + (c.toNat - '0'.toNat)) 0

/-! ## The embedded expression sub-language

Tokens, a tokenizer, an abstract syntax, a recursive-descent reader and an
evaluator for the restricted expression grammar described in the modelling
conventions.  All recursions are fuelled so that every definition reduces
inside the kernel. -/

inductive ETok where
  | ident (s : String)
  | num (n : Int)
  | str (s : String)
  | op (s : String)
deriving Repr, DecidableEq

/-- Read a quoted string body: chars up to the closing quote q (escape
sequences are not modelled; queries under test contain none). -/
def lexStr (q : Char) : List Char → Option (String × List Char)
  | [] => none
  | c :: rest =>
      if c = q then some ("", rest)
      else match lexStr q rest with
        | some (s, r) => some (⟨c :: s.toList⟩, r)
        | none => none

/-- One tokenizer step helper: maximal run of chars satisfying p. -/
def takeRun (p : Char → Bool) : List Char → (List Char × List Char)
  | [] => ([], [])
  | c :: rest =>
      if p c then
        let (a, b) := takeRun p rest
        (c :: a, b)
      else ([], c :: rest)

/-- Fuelled tokenizer for the expression sub-language; none is a lex error
(which in the source would be a host-engine SyntaxError, caught into null). -/
def eTokenize : Nat → List Char → Option (List ETok)
  | 0, _ => none
  | _ + 1, [] => some []
  | fuel + 1, c :: rest =>
      if c = ' ' ∨ c = '\t' then eTokenize fuel rest
      else if c.isAlpha ∨ c = '_' ∨ c = '$' then
        let (run, r) := takeRun (fun d => wordChar d || d = '$') (c :: rest)
        (eTokenize fuel r).map (fun ts => ETok.ident ⟨run⟩ :: ts)
      else if c.isDigit then
        let (run, r) := takeRun Char.isDigit (c :: rest)
        (eTokenize fuel r).map (fun ts => ETok.num (digitsToNat run : Nat) :: ts)
      else if c = '"' ∨ c = '\'' then
        match lexStr c rest with
        | some (s, r) => (eTokenize fuel r).map (fun ts => ETok.str s :: ts)
        | none => none
      else
        let two : List Char := c :: rest.take 1
        let three : List Char := c :: rest.take 2
        if three = ['=', '=', '='] ∨ three = ['!', '=', '='] then
          (eTokenize fuel (rest.drop 2)).map (fun ts => ETok.op ⟨three⟩ :: ts)
        else if two = ['=', '='] ∨ two = ['!', '='] ∨ two = ['<', '='] ∨ two = ['>', '='] ∨
                two = ['&', '&'] ∨ two = ['|', '|'] then
          (eTokenize fuel (rest.drop 1)).map (fun ts => ETok.op ⟨two⟩ :: ts)
        else if c = '.' ∨ c = '[' ∨ c = ']' ∨ c = '(' ∨ c = ')' ∨ c = '!' ∨ c = '+' ∨
                c = '-' ∨ c = '<' ∨ c = '>' then
          (eTokenize fuel rest).map (fun ts => ETok.op ⟨[c]⟩ :: ts)
        else none

/-- Abstract syntax of the embedded expression sub-language. -/
inductive Expr where
  | lit (v : Value)
  | identE (s : String)
  | member (e : Expr) (fld : String)
  | indexE (e i : Expr)
  | notE (e : Expr)
  | binE (op : String) (a b : Expr)
deriving Repr

mutual

/-- Primary expressions: literals, identifiers, parenthesised expressions. -/
def ePrimary : Nat → List ETok → Option (Expr × List ETok)
  | 0, _ => none
  | fuel + 1, ts =>
      match ts with
      | ETok.num n :: r => some (Expr.lit (vNum n), r)
      | ETok.str s :: r => some (Expr.lit (vStr s), r)
      | ETok.ident s :: r =>
          if s = "true" then some (Expr.lit (vBool true), r)
          else if s = "false" then some (Expr.lit (vBool false), r)
          else if s = "null" then some (Expr.lit vNull, r)
          else if s = "undefined" then some (Expr.lit vUndef, r)
          else some (Expr.identE s, r)
      | ETok.op "(" :: r =>
          match eExpr fuel r with
          | some (e, ETok.op ")" :: r') => some (e, r')
          | _ => none
      | _ => none

/-- Postfix chains: member access and computed index access. -/
def ePostfixLoop : Nat → Expr → List ETok → Option (Expr × List ETok)
  | 0, _, _ => none
  | fuel + 1, acc, ts =>
      match ts with
      | ETok.op "." :: ETok.ident f :: r => ePostfixLoop fuel (Expr.member acc f) r
      | ETok.op "[" :: r =>
          match eExpr fuel r with
          | some (i, ETok.op "]" :: r') => ePostfixLoop fuel (Expr.indexE acc i) r'
          | _ => none
      | _ => some (acc, ts)

def ePostfix : Nat → List ETok → Option (Expr × List ETok)
  | 0, _ => none
  | fuel + 1, ts =>
      match ePrimary fuel ts with
      | some (e, r) => ePostfixLoop fuel e r
      | none => none

def eUnary : Nat → List ETok → Option (Expr × List ETok)
  | 0, _ => none
  | fuel + 1, ts =>
      match ts with
      | ETok.op "!" :: r => (eUnary fuel r).map (fun er => (Expr.notE er.1, er.2))
      | _ => ePostfix fuel ts

def eAdd : Nat → List ETok → Option (Expr × List ETok)
  | 0, _ => none
  | fuel + 1, ts =>
      match eUnary fuel ts with
      | some (e, r) => eAddLoop fuel e r
      | none => none

def eAddLoop : Nat → Expr → List ETok → Option (Expr × List ETok)
  | 0, _, _ => none
  | fuel + 1, acc, ts =>
      match ts with
      | ETok.op o :: r =>
          if o = "+" ∨ o = "-" then
            match eUnary fuel r with
            | some (e, r') => eAddLoop fuel (Expr.binE o acc e) r'
            | none => none
          else some (acc, ts)
      | _ => some (acc, ts)

def eRel : Nat → List ETok → Option (Expr × List ETok)
  | 0, _ => none
  | fuel + 1, ts =>
      match eAdd fuel ts with
      | some (e, r) => eRelLoop fuel e r
      | none => none

def eRelLoop : Nat → Expr → List ETok → Option (Expr × List ETok)
  | 0, _, _ => none
  | fuel + 1, acc, ts =>
      match ts with
      | ETok.op o :: r =>
          if o = "<" ∨ o = ">" ∨ o = "<=" ∨ o = ">=" then
            match eAdd fuel r with
            | some (e, r') => eRelLoop fuel (Expr.binE o acc e) r'
            | none => none
          else some (acc, ts)
      | _ => some (acc, ts)

def eEq : Nat → List ETok → Option (Expr × List ETok)
  | 0, _ => none
  | fuel + 1, ts =>
      match eRel fuel ts with
      | some (e, r) => eEqLoop fuel e r
      | none => none

def eEqLoop : Nat → Expr → List ETok → Option (Expr × List ETok)
  | 0, _, _ => none
  | fuel + 1, acc, ts =>
      match ts with
      | ETok.op o :: r =>
          if o = "===" ∨ o = "!==" ∨ o = "==" ∨ o = "!=" then
            match eRel fuel r with
            | some (e, r') => eEqLoop fuel (Expr.binE o acc e) r'
            | none => none
          else some (acc, ts)
      | _ => some (acc, ts)

def eAnd : Nat → List ETok → Option (Expr × List ETok)
  | 0, _ => none
  | fuel + 1, ts =>
      match eEq fuel ts with
      | some (e, r) => eAndLoop fuel e r
      | none => none

def eAndLoop : Nat → Expr → List ETok → Option (Expr × List ETok)
  | 0, _, _ => none
  | fuel + 1, acc, ts =>
      match ts with
      | ETok.op o :: r =>
          if o = "&&" then
            match eEq fuel r with
            | some (e, r') => eAndLoop fuel (Expr.binE o acc e) r'
            | none => none
          else some (acc, ts)
      | _ => some (acc, ts)

def eExpr : Nat → List ETok → Option (Expr × List ETok)
  | 0, _ => none
  | fuel + 1, ts =>
      match eAnd fuel ts with
      | some (e, r) => eOrLoop fuel e r
      | none => none

def eOrLoop : Nat → Expr → List ETok → Option (Expr × List ETok)
  | 0, _, _ => none
  | fuel + 1, acc, ts =>
      match ts with
      | ETok.op o :: r =>
          if o = "||" then
            match eAnd fuel r with
            | some (e, r') => eOrLoop fuel (Expr.binE o acc e) r'
            | none => none
          else some (acc, ts)
      | _ => some (acc, ts)

end

/-- Parse one full expression string; none is a syntax error (in the source:
a host SyntaxError thrown by the Function constructor, caught into null). -/
def parseExpr (s : String) : Option Expr :=
  match eTokenize (s.length + 1) s.toList with
  | none => none
  | some ts =>
      match eExpr (10 * ts.length + 10) ts with
      | some (e, []) => some e
      | _ => none

/-- JS strict equality on the modelled values.  Distinct objects and arrays
compare by reference in JS; the tree model has no sharing, so object
comparisons are modelled as false (no claim compares objects). -/
def jsStrictEq (a b : Value) : Bool :=
  match a, b with
  | vNull, vNull => true
  | vUndef, vUndef => true
  | vBool x, vBool y => x = y
  | vNum x, vNum y => x = y
  | vStr x, vStr y => x = y
  | _, _ => false

/-- JS loose equality restricted to the cases the claims exercise: same-type
comparisons and null == undefined (numeric string coercions not modelled). -/
def jsLooseEq (a b : Value) : Bool :=
  jsStrictEq a b || (jsNullish a && jsNullish b)

/-- Stringification of a primitive for the + operator. -/
def jsToStr : Value → Option String
  | vStr s => some s
  | vNum n => some (toString n)
  | vBool b => some (if b then "true" else "false")
  | vNull => some "null"
  | vUndef => some "undefined"
  | _ => none

/-- Key conversion for computed index access target[i]. -/
def jsPropKey : Value → String
  | vNum n => toString n
  | vStr s => s
  | vBool b => if b then "true" else "false"
  | vNull => "null"
  | vUndef => "undefined"
  | _ => ""

/-- Evaluate an expression against an identifier-resolution function;
Except.error is a thrown JS error (ReferenceError / TypeError), which every
caller in the source catches. -/
def evalCore (lookupId : String → Except Unit Value) : Expr → Except Unit Value
  | Expr.lit v => Except.ok v
  | Expr.identE s => lookupId s
  | Expr.member e f => do
      let v ← evalCore lookupId e
      if jsNullish v then Except.error () else Except.ok (jsIndex v f)
  | Expr.indexE e i => do
      let v ← evalCore lookupId e
      let iv ← evalCore lookupId i
      if jsNullish v then Except.error () else Except.ok (jsIndex v (jsPropKey iv))
  | Expr.notE e => do
      let v ← evalCore lookupId e
      Except.ok (vBool (! jsTruthy v))
  | Expr.binE o a b =>
      if o = "&&" then do
        let va ← evalCore lookupId a
        if jsTruthy va then evalCore lookupId b else Except.ok va
      else if o = "||" then do
        let va ← evalCore lookupId a
        if jsTruthy va then Except.ok va else evalCore lookupId b
      else do
        let va ← evalCore lookupId a
        let vb ← evalCore lookupId b
        if o = "===" then Except.ok (vBool (jsStrictEq va vb))
        else if o = "!==" then Except.ok (vBool (! jsStrictEq va vb))
        else if o = "==" then Except.ok (vBool (jsLooseEq va vb))
        else if o = "!=" then Except.ok (vBool (! jsLooseEq va vb))
        else if o = "+" then
          match va, vb with
          | vNum x, vNum y => Except.ok (vNum (x + y))
          | vStr _, _ => match jsToStr va, jsToStr vb with
              | some x, some y => Except.ok (vStr (x ++ y))
              | _, _ => Except.error ()
          | _, vStr _ => match jsToStr va, jsToStr vb with
              | some x, some y => Except.ok (vStr (x ++ y))
              | _, _ => Except.error ()
          | _, _ => Except.error ()
        else if o = "-" then
          match va, vb with
          | vNum x, vNum y => Except.ok (vNum (x - y))
          | _, _ => Except.error ()
        else
          match va, vb with
          | vNum x, vNum y =>
              if o = "<" then Except.ok (vBool (x < y))
              else if o = ">" then Except.ok (vBool (x > y))
              else if o = "<=" then Except.ok (vBool (x ≤ y))
              else if o = ">=" then Except.ok (vBool (x ≥ y))
              else Except.error ()
          | vStr x, vStr y =>
              if o = "<" then Except.ok (vBool (decide (x < y)))
              else if o = ">" then Except.ok (vBool (decide (y < x)))
              else if o = "<=" then Except.ok (vBool (decide (¬ y < x)))
              else if o = ">=" then Except.ok (vBool (decide (¬ x < y)))
              else Except.error ()
          | _, _ => Except.error ()

/-- Identifier resolution of evalNestedField: with(data){ with(root){ ... } }
puts root innermost, so root properties are looked up first, then data
properties, then the function parameters named data and root. -/
def nfLookup (data root : Value) (s : String) : Except Unit Value :=
  if hasProp root s then Except.ok (jsIndex root s)
  else if hasProp data s then Except.ok (jsIndex data s)
  else if s = "data" then Except.ok data
  else if s = "root" then Except.ok root
  else Except.error ()

/-- Embedding of evalNestedField (index.ts:60): evaluate an expression with
data and root in scope, returning null on any thrown error.  A nullish data
or root makes the with statement itself throw, hence null. -/
def evalNestedField (expr : String) (data root : Value) : Value :=
  if jsNullish data ∨ jsNullish root then vNull
  else match parseExpr expr with
    | none => vNull
    | some e =>
        match evalCore (nfLookup data root) e with
        | Except.ok v => v
        | Except.error _ => vNull

/-- Identifier resolution for a transform expression
Function("value", "data", with(data){ return EXPR }): data properties first,
then the parameters value and data; root is not in scope. -/
def trLookup (value data : Value) (s : String) : Except Unit Value :=
  if hasProp data s then Except.ok (jsIndex data s)
  else if s = "value" then Except.ok value
  else if s = "data" then Except.ok data
  else Except.error ()

/-- Embedding of the transform evaluation (index.ts:420): none is a thrown
error, which the source catches leaving the value unchanged. -/
def evalTransform (expr : String) (value data : Value) : Option Value :=
  if jsNullish data then none
  else match parseExpr expr with
    | none => none
    | some e =>
        match evalCore (trLookup value data) e with
        | Except.ok v => some v
        | Except.error _ => none

/-! ## Path resolver and auto-resolve (index.ts:36 and index.ts:51) -/

/-- Embedding of getByPath: split the path on dots and descend with the
optional-chaining read acc?.[key]; a final ?? null turns undefined into
null.  JS String.split and Lean String.splitOn agree on non-empty
separators, including the [""] result for the empty string. -/
def getByPath (obj : Value) (path : String) : Value :=
  vCoalesce
    ((strSplitOnChar '.' path).foldl
      (fun acc k => if jsNullish acc then vUndef else jsIndex acc k) obj)
    vNull

/-- The typeof val === "object" && val !== null test of autoResolve:
true exactly for objects and arrays (our vNull models the JS null that the
source excludes explicitly). -/
def isObjTy : Value → Bool
  | vObj _ => true
  | vArr _ => true
  | _ => false

/-- The own enumerable entries walked by for k of Object.keys(obj):
field list of an object, indexed elements of an array; primitives have
none that matter (string character entries are never objects and are
never recursed into, so they are omitted). -/
def jsOwnEntries : Value → List Value
  | vObj fs => fs.map Prod.snd
  | vArr xs => xs
  | _ => []

/-- Constructor test for undefined. -/
def isUndef : Value → Bool
  | vUndef => true
  | _ => false

/-- Constructor test for null. -/
def isNullV : Value → Bool
  | vNull => true
  | _ => false

/-- The for-of loop of autoResolve over the own entries, with the early
return of the source: ar is the recursive call at one less fuel.  Once a
child yields none (fuel ran out below), none is kept: in the source,
control never comes back from that child. -/
def arScan (ar : Value → String → Option Value) (key : String) : List Value → Option Value
  | [] => some vNull
  | val :: rest =>
      if isObjTy val then
        match ar val key with
        | none => none
        | some found =>
            if ! isNullV found then some found else arScan ar key rest
      else arScan ar key rest

/-- Fuelled embedding of autoResolve (index.ts:36): check obj[key]
directly (any value distinct from undefined is returned, including null);
otherwise scan the own entries in enumeration order, recursing into every
object or array and keeping the first non-null find; null when exhausted.
The fuel bounds recursion depth exactly as the host call stack does; the
result none means the fuel ran out, i.e. the source recursion would still
be descending at that depth (on finite acyclic data a sufficient fuel
always exists; the store model below exhibits the cyclic case). -/
def autoResolveF : Nat → Value → String → Option Value
  | 0, _, _ => none
  | fuel + 1, obj, key =>
      if jsNullish obj then some vNull
      else if ! isUndef (jsIndex obj key) then some (jsIndex obj key)
      else arScan (autoResolveF fuel) key (jsOwnEntries obj)

/-! ## Query tree model

The source represents a compiled query as a plain JS object whose values
are discriminated by duck-typing at each shaping step: a function (computed
field), a string, an object passing isDirectiveObject (index.ts:20), any
other non-null object (a plain nested query object), or anything else.
The embedding resolves that discrimination statically into a closed
variant, which is exactly the mapping isDirectiveObject induces.  Function
fields are the closures the query compiler itself builds, namely
(data, root) => evalNestedField(expr, data, root) — at the top level the
compiler captures rootData instead of taking it as a parameter, but inside
shape both receive the same threaded root value, so one constructor
carrying the expression string models both closure shapes. -/

/-- A parsed integer directive argument: parseInt yields either an integer
or NaN. -/
inductive JsNum where
  | int (n : Int)
  | nan
deriving Repr, DecidableEq

mutual

inductive QField where
  | fn (expr : String)
  | str (s : String)
  | dir (d : QDirective)
  | obj (t : QTree)
  | other (v : Value)

/-- Field order: path, skipIf, includeIf, nested, filter, defaultV,
transform, limit, skip — matching the QueryDirective declaration order in
types.ts (default is renamed defaultV, default being reserved in Lean). -/
inductive QDirective where
  | mk (path skipIf includeIf : Option String) (nested : Option QTree)
       (filter : Option String) (defaultV : Option Value)
       (transform : Option String) (limit skip : Option JsNum)

inductive QTree where
  | mk (fields : List (String × QField)) (frags : List String)

end

def QTree.fields : QTree → List (String × QField)
  | .mk fs _ => fs

def QTree.frags : QTree → List String
  | .mk _ fr => fr

def QDirective.path : QDirective → Option String
  | .mk p _ _ _ _ _ _ _ _ => p

def QDirective.skipIf : QDirective → Option String
  | .mk _ s _ _ _ _ _ _ _ => s

def QDirective.includeIf : QDirective → Option String
  | .mk _ _ i _ _ _ _ _ _ => i

def QDirective.nested : QDirective → Option QTree
  | .mk _ _ _ n _ _ _ _ _ => n

def QDirective.filter : QDirective → Option String
  | .mk _ _ _ _ f _ _ _ _ => f

def QDirective.defaultV : QDirective → Option Value
  | .mk _ _ _ _ _ d _ _ _ => d

def QDirective.transform : QDirective → Option String
  | .mk _ _ _ _ _ _ t _ _ => t

def QDirective.limit : QDirective → Option JsNum
  | .mk _ _ _ _ _ _ _ l _ => l

def QDirective.skip : QDirective → Option JsNum
  | .mk _ _ _ _ _ _ _ _ s => s

/-- The directive with every property absent. -/
def dirNone : QDirective :=
  QDirective.mk none none none none none none none none none

/-- JS Array.prototype.slice(begin): NaN coerces to 0, a negative begin
counts from the end, an overlarge begin yields the empty array. -/
def jsSliceFrom (xs : List Value) : JsNum → List Value
  | JsNum.nan => xs
  | JsNum.int i =>
      if i < 0 then xs.drop (max (xs.length + i) 0).toNat
      else xs.drop i.toNat

/-- JS Array.prototype.slice(0, end): NaN coerces to 0 (empty result), a
negative end counts from the end. -/
def jsSliceTo (xs : List Value) : JsNum → List Value
  | JsNum.nan => []
  | JsNum.int i =>
      if i < 0 then xs.take (max (xs.length + i) 0).toNat
      else xs.take i.toNat

/-! ## The shaping engine (index.ts:335) -/

/-- The two ways the source can fail to produce a value: a thrown TypeError
(parseArgs on a valueless argument, mergeDeep on an incompatible target) and
exhaustion of the modelled recursion depth (noFuel), which stands for a
source run still descending at that depth.  Every theorem below about
normal behaviour is conditional on an Except.ok result, so the fuel never
weakens a statement; witnesses instantiate it concretely. -/
inductive ShapeErr where
  | typeError
  | noFuel
deriving Repr, DecidableEq

/-- root = rootData ?? data (index.ts:346); the parameter being absent is
modelled by none. -/
def rootEff (data : Value) (rootData : Option Value) : Value :=
  match rootData with
  | none => data
  | some r => if jsNullish r then data else r

/-- safeTarget = data ?? {} (index.ts:366). -/
def safeOf (data : Value) : Value :=
  if jsNullish data then vObj [] else data

/-- Property write on a value: objects update or append; writes on arrays
and primitives are dropped (JS array property writes are invisible to the
shaped output, and primitive writes are silently ignored outside strict
mode; writes on null or undefined throw and are guarded at call sites). -/
def jsSetProp (t : Value) (k : String) (v : Value) : Value :=
  match t with
  | vObj fs => vObj (objSet k v fs)
  | _ => t

/-- The mergeDeep recursion test: source[key] && typeof === "object" &&
!Array.isArray — true exactly for (non-null) plain objects. -/
def isMergeObj : Value → Bool
  | vObj _ => true
  | _ => false

/-- The for-in loop of mergeDeep over the source fields; md is the
recursive merge at one less fuel. -/
def mergeFieldsLoop (md : Value → Value → Except ShapeErr Value) :
    Value → List (String × Value) → Except ShapeErr Value
  | t, [] => Except.ok t
  | t, (k, v) :: rest =>
      if k = "__fragments" then mergeFieldsLoop md t rest
      else if isMergeObj v then
        if jsNullish t then Except.error ShapeErr.typeError
        else
          let t1 := if ! jsTruthy (jsIndex t k) then jsSetProp t k (vObj []) else t
          match md (jsIndex t1 k) v with
          | Except.error e => Except.error e
          | Except.ok m => mergeFieldsLoop md (jsSetProp t1 k m) rest
      else
        if jsNullish t then Except.error ShapeErr.typeError
        else mergeFieldsLoop md (jsSetProp t k v) rest

/-- Fuelled embedding of mergeDeep (index.ts:78), functional over the
target it mutates.  Reading or writing a property of a null or undefined
target throws a TypeError, which the source does not catch; fuel bounds
recursion depth into the source value. -/
def mergeDeepF : Nat → Value → Value → Except ShapeErr Value
  | 0, _, _ => Except.error ShapeErr.noFuel
  | fuel + 1, target, source =>
      match source with
      | vObj sf => mergeFieldsLoop (mergeDeepF fuel) target sf
      | _ => Except.ok target

/-- Fragment registry: the caller-supplied mapping from fragment name to
query tree.  An absent registry behaves exactly like an empty list: the
source skips the whole expansion loop, the model looks names up in vain. -/
def fragLookup (name : String) : List (String × QTree) → Option QTree
  | [] => none
  | (n, t) :: rest => if n = name then some t else fragLookup name rest

/-- One alternative of a directive path fallback chain (index.ts:401):
getByPath on the current data, then getByPath on root, then autoResolve on
root, then the expression evaluator, joined by ??.  Laziness of ?? is
reproduced: autoResolve only runs (and can only run out of fuel, none)
when both path lookups were nullish. -/
def pathAltValue (n : Nat) (safe root : Value) (part : String) : Option Value :=
  let g1 := getByPath safe part
  if ! jsNullish g1 then some g1
  else
    let g2 := getByPath root part
    if ! jsNullish g2 then some g2
    else
      match autoResolveF n root part with
      | none => none
      | some ar =>
          if ! jsNullish ar then some ar
          else some (evalNestedField part safe root)

/-- The for-loop over ||-alternatives (index.ts:400): left to right, break
on the first non-nullish value; the last alternative's value, nullish or
not, is kept when none matched.  splitOn never yields an empty list. -/
def pathChainLoop (n : Nat) (safe root : Value) : List String → Option Value
  | [] => some vNull
  | [p] => pathAltValue n safe root p
  | p :: rest =>
      match pathAltValue n safe root p with
      | none => none
      | some v => if ! jsNullish v then some v else pathChainLoop n safe root rest

/-- Directive value resolution (index.ts:399): the path chain when a path
is present (and truthy, i.e. non-empty), else data[key] ?? autoResolve. -/
def dirResolveValue (n : Nat) (safe root : Value) (key : String) (d : QDirective) :
    Option Value :=
  let keyFb : Option Value :=
    let direct := jsIndex safe key
    if ! jsNullish direct then some direct else autoResolveF n root key
  match d.path with
  | some p =>
      if p ≠ "" then pathChainLoop n safe root ((strSplitOnStr "||" p).map strTrim)
      else keyFb
  | none => keyFb

/-- Default substitution (index.ts:414): only when the value is nullish and
the default property is present with a value distinct from undefined. -/
def applyDefault (d : QDirective) (v : Value) : Value :=
  if jsNullish v then
    match d.defaultV with
    | some dv => if isUndef dv then v else dv
    | none => v
  else v

/-- Transform application (index.ts:420): only for a truthy transform
string and a non-nullish value; a thrown evaluation error leaves the value
unchanged. -/
def applyTransformD (d : QDirective) (v safe : Value) : Value :=
  match d.transform with
  | some t =>
      if t ≠ "" ∧ ! jsNullish v then
        match evalTransform t v safe with
        | some w => w
        | none => v
      else v
  | none => v

/-- The array filter stage (index.ts:432): keep items whose filter
expression, evaluated with the item as the data scope, is truthy. -/
def filterStage (root : Value) (d : QDirective) (xs : List Value) : List Value :=
  match d.filter with
  | some f => if f ≠ "" then xs.filter (fun it => jsTruthy (evalNestedField f it root)) else xs
  | none => xs

/-- The skip stage (index.ts:437). -/
def skipStage (d : QDirective) (xs : List Value) : List Value :=
  match d.skip with
  | some j => jsSliceFrom xs j
  | none => xs

/-- The limit stage (index.ts:438). -/
def limitStage (d : QDirective) (xs : List Value) : List Value :=
  match d.limit with
  | some j => jsSliceTo xs j
  | none => xs

/-- Left-to-right effectful map for the nested shaping of array items;
the first thrown error (or fuel exhaustion) propagates, as in the source. -/
def shapeArrayMap (sh : Value → QTree → String → Except ShapeErr Value)
    (t : QTree) (key : String) : List Value → Except ShapeErr (List Value)
  | [] => Except.ok []
  | it :: rest =>
      match sh it t key with
      | Except.error e => Except.error e
      | Except.ok v =>
          match shapeArrayMap sh t key rest with
          | Except.error e => Except.error e
          | Except.ok l => Except.ok (v :: l)

/-- Directive processing, the body of the isDirectiveObject branch
(index.ts:373–452): skip check, include check, value resolution, default,
transform, then array pipeline / object recursion / scalar emission.
sh is the recursive shaping call at one less fuel. -/
def dirSkipOn (d : QDirective) (safe root : Value) : Bool :=
  match d.skipIf with
  | some e => if e ≠ "" then jsTruthy (evalNestedField e safe root) else false
  | none => false

def dirInclBlocked (d : QDirective) (safe root : Value) : Bool :=
  match d.includeIf with
  | some e => if e ≠ "" then ! jsTruthy (evalNestedField e safe root) else false
  | none => false

def shapeDirective (n : Nat) (sh : Value → QTree → String → Except ShapeErr Value)
    (safe root : Value) (key : String) (d : QDirective) : Except ShapeErr Value :=
  if dirSkipOn d safe root then Except.ok vNull
  else
    if dirInclBlocked d safe root then Except.ok vNull
    else
      match dirResolveValue n safe root key d with
      | none => Except.error ShapeErr.noFuel
      | some v0 =>
          let v2 := applyTransformD d (applyDefault d v0) safe
          match v2 with
          | vArr xs =>
              let a3 := limitStage d (skipStage d (filterStage root d xs))
              match d.nested with
              | some t =>
                  match shapeArrayMap sh t key a3 with
                  | Except.error e => Except.error e
                  | Except.ok l => Except.ok (vArr l)
              | none => Except.ok (vArr a3)
          | vObj fs =>
              match d.nested with
              | some t => sh (vObj fs) t key
              | none => Except.ok (vObj fs)
          | v => Except.ok (vCoalesce v vNull)

/-- The value stored for one output key, for each of the five duck-typed
field kinds of the source loop (index.ts:368–476). -/
def shapeFieldValue (n : Nat) (sh : Value → QTree → String → Except ShapeErr Value)
    (data root : Value) (key : String) : QField → Except ShapeErr Value
  | QField.fn e => Except.ok (evalNestedField e (safeOf data) root)
  | QField.dir d => shapeDirective n sh (safeOf data) root key d
  | QField.obj t =>
      let nv := jsIndex (safeOf data) key
      sh (if jsNullish nv then vObj [] else nv) t key
  | QField.str s =>
      let safe := safeOf data
      let ev := evalNestedField s safe root
      if ! jsNullish ev then Except.ok ev
      else
        let g := getByPath safe s
        if ! jsNullish g then Except.ok g
        else
          match autoResolveF n root s with
          | none => Except.error ShapeErr.noFuel
          | some ar => Except.ok (vCoalesce ar vNull)
  | QField.other _ => Except.ok (vCoalesce (jsIndex (safeOf data) key) vNull)

/-- The for-in loop over the query tree (index.ts:362), accumulating
result[key] assignments; the __fragments property is skipped. -/
def shapeFieldsLoop (n : Nat) (sh : Value → QTree → String → Except ShapeErr Value)
    (data root : Value) : List (String × QField) → Value → Except ShapeErr Value
  | [], result => Except.ok result
  | (k, f) :: rest, result =>
      if k = "__fragments" then shapeFieldsLoop n sh data root rest result
      else
        match shapeFieldValue n sh data root k f with
        | Except.error e => Except.error e
        | Except.ok v => shapeFieldsLoop n sh data root rest (jsSetProp result k v)

/-- The fragment-expansion forEach of shape (index.ts:348): unknown names
contribute nothing; each found fragment is shaped with the same data and
deep-merged into the accumulated result.  shFrag is the recursive shaping
call at one less fuel, md the fuelled mergeDeep.  The Array.isArray(result)
branch of the source is dead — result is created as a plain object and only
ever merged into — and is omitted. -/
def shapeFragsLoop (shFrag : QTree → Except ShapeErr Value)
    (md : Value → Value → Except ShapeErr Value)
    (frags : List (String × QTree)) : List String → Value → Except ShapeErr Value
  | [], result => Except.ok result
  | name :: rest, result =>
      match fragLookup name frags with
      | none => shapeFragsLoop shFrag md frags rest result
      | some ft =>
          match shFrag ft with
          | Except.error e => Except.error e
          | Except.ok fragResult =>
              match md result fragResult with
              | Except.error e => Except.error e
              | Except.ok r' => shapeFragsLoop shFrag md frags rest r'

/-- Embedding of shape (index.ts:335) over an already-compiled query tree.
The fuel is the modelled recursion depth: it decreases on every recursive
shaping call (nested blocks, array items, fragment expansion); Except.error
noFuel means the source run is still recursing at that depth, which only an
unboundedly recursive input (a cyclic fragment registry) can force.  The
contextKey parameter is threaded exactly as in the source: passed on to
fragment expansion calls, replaced by the field key for nested recursion,
and never otherwise consulted. -/
def shape : Nat → Value → QTree → List (String × QTree) → Option Value → Option String →
    Except ShapeErr Value
  | 0, _, _, _, _, _ => Except.error ShapeErr.noFuel
  | fuel + 1, data, q, frags, rootData, contextKey =>
      let root := rootEff data rootData
      match shapeFragsLoop (fun t => shape fuel data t frags (some root) contextKey)
          (mergeDeepF fuel) frags q.frags (vObj []) with
      | Except.error e => Except.error e
      | Except.ok r0 =>
          shapeFieldsLoop fuel
            (fun d t k => shape fuel d t frags (some root) (some k))
            data root q.fields r0

/-! ## The query compiler (index.ts:95 parseArgs, index.ts:136 parseQuery)

parseQuery dispatches each line through a fixed sequence of regular
expressions.  Each regex is embedded as a dedicated matcher over character
lists implementing its JS semantics (leftmost match, greedy dot-star
captures bounded by the trailing literal, anchoring as written); the
original pattern is quoted above each matcher. -/

/-- Literal prefix match. -/
def stripLit : List Char → List Char → Option (List Char)
  | [], cs => some cs
  | _, [] => none
  | p :: ps, c :: cs => if c = p then stripLit ps cs else none

/-- Index of the last position j with cs[j] in qs and cs[j+1] = close:
the greedy dot-star of a capture of the form quote (.*) quote close. -/
def lastQuoteCloseIdx (qs : List Char) (close : Char) (cs : List Char) : Option Nat :=
  (List.range cs.length).foldl
    (fun acc j =>
      match cs.get? j, cs.get? (j + 1) with
      | some q, some p => if q ∈ qs ∧ p = close then some j else acc
      | _, _ => acc)
    none

/-- Split at the first occurrence of c; none when c does not occur. -/
def splitAtFirst (c : Char) : List Char → Option (List Char × List Char)
  | [] => none
  | x :: r =>
      if x = c then some ([], r)
      else match splitAtFirst c r with
        | some (a, b) => some (x :: a, b)
        | none => none

/-- Index of the last occurrence of c. -/
def lastIdxOf (c : Char) (cs : List Char) : Option Nat :=
  (List.range cs.length).foldl
    (fun acc j => match cs.get? j with
      | some x => if x = c then some j else acc
      | none => acc)
    none

/-- Matcher for the inline conditional-directive regexes (index.ts:149 and
index.ts:158): (\w+)\s+@skip\(if:\s*"(.*)"\) and the @include twin.  tag is
the literal from the at-sign through the colon; returns the captured field
name and expression of the leftmost match. -/
def matchCondDirective (tag : List Char) : List Char → Option (String × String)
  | [] => none
  | cs@(_ :: t) =>
      (let (w, r1) := takeRun wordChar cs
       if w ≠ [] then
         let (ws, r2) := takeRun isWsChar r1
         if ws ≠ [] then
           match stripLit tag r2 with
           | some r3 =>
               let (_, r4) := takeRun isWsChar r3
               match r4 with
               | '"' :: r5 =>
                   match lastQuoteCloseIdx ['"'] ')' r5 with
                   | some j => some ((⟨w⟩ : String), (⟨r5.take j⟩ : String))
                   | none => none
               | _ => none
           | none => none
         else none
       else none).orElse (fun _ => matchCondDirective tag t)

/-- Matcher for the header-level conditional regexes (index.ts:245 and
index.ts:250): @skip\(if:\s*"(.*)"\) without a field-name prefix; on a
match, returns the captured expression and the line with the matched span
removed (the line.replace(match, "") of the source). -/
def extractHeaderCondAux (tag : List Char) : List Char → List Char →
    Option (String × List Char)
  | _, [] => none
  | pre, cs@(c :: t) =>
      (match stripLit tag cs with
       | some r3 =>
           let (ws2, r4) := takeRun isWsChar r3
           match r4 with
           | '"' :: r5 =>
               match lastQuoteCloseIdx ['"'] ')' r5 with
               | some j => some ((⟨r5.take j⟩ : String), pre.reverse ++ r5.drop (j + 2))
               | none => none
           | _ =>
               let _ := ws2
               none
       | none => none).orElse (fun _ => extractHeaderCondAux tag (c :: pre) t)

/-- Apply extractHeaderCondAux and trim, as header.replace(...).trim(). -/
def extractHeaderCond (tag : List Char) (header : String) : Option String × String :=
  match extractHeaderCondAux tag [] header.toList with
  | some (e, rest) => (some e, strTrim ⟨rest⟩)
  | none => (none, header)

/-- Matcher for the inline default regex (index.ts:167):
@default\(value:\s*["'](.*)["']\) with either quote accepted on both
sides; returns the captured value and the line with the span removed. -/
def matchDefaultAux : List Char → List Char → Option (String × List Char)
  | _, [] => none
  | pre, cs@(c :: t) =>
      (match stripLit "@default(value:".toList cs with
       | some r3 =>
           let (_, r4) := takeRun isWsChar r3
           match r4 with
           | q :: r5 =>
               if q = '"' ∨ q = '\'' then
                 match lastQuoteCloseIdx ['"', '\''] ')' r5 with
                 | some j => some ((⟨r5.take j⟩ : String), pre.reverse ++ r5.drop (j + 2))
                 | none => none
               else none
           | [] => none
       | none => none).orElse (fun _ => matchDefaultAux (c :: pre) t)

/-- Matcher for the inline transform regex (index.ts:177), anchored:
^(\w+)\s*:\s*(\w+)\s+@transform\(fn:\s*"(.*)"\) returning alias, path and
transform body. -/
def matchTransformInline (cs : List Char) : Option (String × String × String) :=
  let (w1, r1) := takeRun wordChar cs
  if w1 = [] then none
  else
    let (_, r2) := takeRun isWsChar r1
    match r2 with
    | ':' :: r3 =>
        let (_, r4) := takeRun isWsChar r3
        let (w2, r5) := takeRun wordChar r4
        if w2 = [] then none
        else
          let (ws, r6) := takeRun isWsChar r5
          if ws = [] then none
          else
            match stripLit "@transform(fn:".toList r6 with
            | some r7 =>
                let (_, r8) := takeRun isWsChar r7
                match r8 with
                | '"' :: r9 =>
                    match lastQuoteCloseIdx ['"'] ')' r9 with
                    | some j => some (⟨w1⟩, ⟨w2⟩, ⟨r9.take j⟩)
                    | none => none
                | _ => none
            | none => none
    | _ => none

/-- Matcher for the inline-block regex (index.ts:187), fully anchored:
^(\w+)(\([^)]*\))?\s*\{\s*([^}]*)\s*\}$ — the paren group stops at the
first closing paren, the body capture stops at the first closing brace,
which must end the line.  Returns key, optional argument text (inside the
parens) and the inner field text. -/
def matchInlineBlock (cs : List Char) : Option (String × Option String × String) :=
  let (w, r1) := takeRun wordChar cs
  if w = [] then none
  else
    let argsAndRest : Option (Option String × List Char) :=
      match r1 with
      | '(' :: rr =>
          match splitAtFirst ')' rr with
          | some (content, rest) => some (some ⟨content⟩, rest)
          | none => none
      | _ => some (none, r1)
    match argsAndRest with
    | none => none
    | some (argsP, r2) =>
        let (_, r3) := takeRun isWsChar r2
        match r3 with
        | '{' :: r4 =>
            match splitAtFirst '}' r4 with
            | some (inner, afterBrace) =>
                if afterBrace = [] then some (⟨w⟩, argsP, ⟨inner⟩) else none
            | none => none
        | _ => none

/-- Matcher for the block-header paren regex (index.ts:257):
^(\w+)\((.*)\) — greedy, so the argument text runs to the last closing
paren; anything after it is ignored. -/
def matchParenHeader (cs : List Char) : Option (String × String) :=
  let (w, r1) := takeRun wordChar cs
  if w = [] then none
  else match r1 with
    | '(' :: rr =>
        match lastIdxOf ')' rr with
        | some j => some (⟨w⟩, ⟨rr.take j⟩)
        | none => none
    | _ => none

/-- Matcher for the alias regex (index.ts:317): ^(\w+)\s*:\s*(.+)$. -/
def matchAlias (cs : List Char) : Option (String × String) :=
  let (w, r1) := takeRun wordChar cs
  if w = [] then none
  else
    let (_, r2) := takeRun isWsChar r1
    match r2 with
    | ':' :: r3 =>
        let (_, r4) := takeRun isWsChar r3
        if r4 = [] then none else some (⟨w⟩, ⟨r4⟩)
    | _ => none

/-- The character class of the middle fieldRegex alternative (index.ts:202):
word chars, dots, at-signs and square brackets. -/
def innerPathChar (c : Char) : Bool :=
  wordChar c ∨ c = '.' ∨ c = '@' ∨ c = '[' ∨ c = ']'

/-- Global scan of an inline block body with the fieldRegex
(\.\.\.\w+|\w+\s*:\s*[\w.@\[\]]+|\w+): produces the matched substrings in
order, advancing one char when no alternative matches at a position. -/
def scanFieldToks : Nat → List Char → List String
  | 0, _ => []
  | _ + 1, [] => []
  | fuel + 1, cs@(c :: t) =>
      if c = '.' ∧ t.take 2 = ['.', '.'] then
        let (w, r) := takeRun wordChar (t.drop 2)
        if w ≠ [] then (⟨'.' :: '.' :: '.' :: w⟩ : String) :: scanFieldToks fuel r
        else scanFieldToks fuel t
      else if wordChar c then
        let (w, r1) := takeRun wordChar cs
        let (ws1, r2) := takeRun isWsChar r1
        match r2 with
        | ':' :: r3 =>
            let (ws2, r4) := takeRun isWsChar r3
            let (p, r5) := takeRun innerPathChar r4
            if p ≠ [] then
              (⟨w ++ ws1 ++ [':'] ++ ws2 ++ p⟩ : String) :: scanFieldToks fuel r5
            else (⟨w⟩ : String) :: scanFieldToks fuel r1
        | _ => (⟨w⟩ : String) :: scanFieldToks fuel r1
      else scanFieldToks fuel t

/-- Association update for query fields (the JS current[key] = value). -/
def qSet (k : String) (v : QField) : List (String × QField) → List (String × QField)
  | [] => [(k, v)]
  | (k', v') :: rest => if k' = k then (k, v) :: rest else (k', v') :: qSet k v rest

/-- Build the nested fields and fragment list of an inline block body
(index.ts:201–223): spreads go to __fragments; an alias whose expression
contains a dot or bracket becomes a computed-function field, a plain alias
becomes a path directive, a bare word a string field. -/
def processInnerFields (toks : List String) : List (String × QField) × List String :=
  toks.foldl
    (fun acc f =>
      if strStartsWith f "..." then (acc.1, acc.2 ++ [f.drop 3])
      else
        match matchAlias f.toList with
        | some (al, expr) =>
            if strContainsChar expr '.' ∨ strContainsChar expr '[' then
              (qSet al (QField.fn expr) acc.1, acc.2)
            else
              (qSet al (QField.dir (QDirective.mk (some expr) none none none none none
                none none none)) acc.1, acc.2)
        | none => (qSet (strTrim f) (QField.str (strTrim f)) acc.1, acc.2))
    ([], [])

/-! ### parseArgs (index.ts:95) -/

/-- A parsed argument value: limit and skip become parseInt results,
everything else a quote-stripped string. -/
inductive ArgV where
  | num (j : JsNum)
  | str (s : String)
deriving Repr, DecidableEq

/-- JS parseInt(v, 10) where v may be the undefined second element of the
split (stringified to "undefined", hence NaN): optional sign then a
decimal digit prefix, NaN when there is none. -/
def parseIntJs : Option String → JsNum
  | none => JsNum.nan
  | some s =>
      let cs := (takeRun isWsChar s.toList).2
      let (sign, cs') : Int × List Char :=
        match cs with
        | '-' :: r => (-1, r)
        | '+' :: r => (1, r)
        | r => (1, r)
      let (ds, _) := takeRun Char.isDigit cs'
      if ds = [] then JsNum.nan
      else JsNum.int (sign * (digitsToNat ds : Nat))

/-- The quote-stripping replace of parseArgs: one leading and one trailing
quote character are removed independently. -/
def stripQuotesJs (s : String) : String :=
  let cs := s.toList
  let cs1 := match cs with
    | c :: r => if c = '"' ∨ c = '\'' then r else cs
    | [] => []
  match cs1.reverse with
  | c :: r => if c = '"' ∨ c = '\'' then ⟨r.reverse⟩ else ⟨cs1⟩
  | [] => ⟨cs1⟩

/-- Association update for argument records. -/
def argSet (k : String) (v : ArgV) : List (String × ArgV) → List (String × ArgV)
  | [] => [(k, v)]
  | (k', v') :: rest => if k' = k then (k, v) :: rest else (k', v') :: argSet k v rest

/-- Commit one accumulated argument (the body shared by the comma case and
the trailing case of parseArgs): split on the colon, trim the pieces;
limit and skip go through parseInt; any other named argument *requires* a
value — v.replace on the undefined second piece throws a TypeError, the
one uncaught exception of the compiler. -/
def parseArgsCommit (current : String) (args : List (String × ArgV)) :
    Except ShapeErr (List (String × ArgV)) :=
  let parts := (strSplitOnChar ':' current).map strTrim
  let k := parts.headD ""
  let v : Option String := parts.get? 1
  if k = "" then Except.ok args
  else if k = "limit" ∨ k = "skip" then
    Except.ok (argSet k (ArgV.num (parseIntJs v)) args)
  else
    match v with
    | none => Except.error ShapeErr.typeError
    | some s => Except.ok (argSet k (ArgV.str (stripQuotesJs s)) args)

/-- The character loop of parseArgs: quote tracking, comma splitting. -/
def parseArgsLoop : List Char → List Char → Bool → Char → List (String × ArgV) →
    Except ShapeErr (List (String × ArgV))
  | [], current, _, _, args =>
      if current = [] then Except.ok args
      else parseArgsCommit ⟨current.reverse⟩ args
  | c :: rest, current, inQuotes, quoteChar, args =>
      if (c = '"' ∨ c = '\'') ∧ ¬ inQuotes then
        parseArgsLoop rest (c :: current) true c args
      else if c = quoteChar ∧ inQuotes then
        parseArgsLoop rest (c :: current) false quoteChar args
      else if c = ',' ∧ ¬ inQuotes then
        match parseArgsCommit ⟨current.reverse⟩ args with
        | Except.error e => Except.error e
        | Except.ok args' => parseArgsLoop rest [] inQuotes quoteChar args'
      else parseArgsLoop rest (c :: current) inQuotes quoteChar args

/-- Embedding of parseArgs (index.ts:95). -/
def parseArgs (argsStr : String) : Except ShapeErr (List (String × ArgV)) :=
  parseArgsLoop argsStr.toList [] false ' ' []

/-- Object.assign(directive, args) (index.ts:197, index.ts:262): the
recognised argument names populate the directive; unknown names land on
the JS object but are never consulted by shape and are dropped here. -/
def applyArgs (d : QDirective) (args : List (String × ArgV)) : QDirective :=
  args.foldl
    (fun d kv =>
      let numOf : ArgV → JsNum := fun a => match a with | ArgV.num j => j | ArgV.str _ => JsNum.nan
      let strOf : ArgV → String := fun a => match a with | ArgV.str s => s | ArgV.num _ => ""
      match d with
      | QDirective.mk p sk inc ne fi de tr li s =>
          if kv.1 = "limit" then QDirective.mk p sk inc ne fi de tr (some (numOf kv.2)) s
          else if kv.1 = "skip" then QDirective.mk p sk inc ne fi de tr li (some (numOf kv.2))
          else if kv.1 = "filter" then QDirective.mk p sk inc ne (some (strOf kv.2)) de tr li s
          else if kv.1 = "skipIf" then QDirective.mk p (some (strOf kv.2)) inc ne fi de tr li s
          else if kv.1 = "includeIf" then QDirective.mk p sk (some (strOf kv.2)) ne fi de tr li s
          else if kv.1 = "path" then QDirective.mk (some (strOf kv.2)) sk inc ne fi de tr li s
          else if kv.1 = "transform" then QDirective.mk p sk inc ne fi de (some (strOf kv.2)) li s
          else if kv.1 = "default" then QDirective.mk p sk inc ne fi (some (vStr (strOf kv.2))) tr li s
          else d)
    d

/-- Replace the nested tree of a directive (the pop-time attachment). -/
def setDirNested (d : QDirective) (t : QTree) : QDirective :=
  match d with
  | QDirective.mk p sk inc _ fi de tr li s => QDirective.mk p sk inc (some t) fi de tr li s

/-- One frame of the parse stack: the query object under construction plus
the parent assignment it will complete when popped.  In the source the
pushed nested object is aliased inside the directive already stored in the
parent; attaching at pop time (and flushing unpopped frames at the end)
reproduces that aliasing functionally — the parent cannot change while a
child frame is open. -/
structure PFrame where
  fields : List (String × QField)
  frags : List String
  attach : Option (String × QDirective)

/-- Assign into the object on top of the stack (JS current[key] = value). -/
def topAssign (stack : List PFrame) (k : String) (f : QField) : List PFrame :=
  match stack with
  | [] => []
  | fr :: rest => { fr with fields := qSet k f fr.fields } :: rest

/-- Push a fragment spread onto the top object. -/
def topFrag (stack : List PFrame) (name : String) : List PFrame :=
  match stack with
  | [] => []
  | fr :: rest => { fr with frags := fr.frags ++ [name] } :: rest

/-- Block close (index.ts:275): pop only when more than one frame is open,
writing the completed nested tree into the parent directive. -/
def popFrame (stack : List PFrame) : List PFrame :=
  match stack with
  | fr :: parent :: rest =>
      match fr.attach with
      | some (k, d) =>
          { parent with
            fields := qSet k (QField.dir (setDirNested d (QTree.mk fr.fields fr.frags)))
              parent.fields } :: rest
      | none => parent :: rest
  | s => s

/-- One pop step without the stack: attach the child frame into its
parent. -/
def flushOnto (fr parent : PFrame) : PFrame :=
  match fr.attach with
  | some (k, d) =>
      { parent with
        fields := qSet k (QField.dir (setDirNested d (QTree.mk fr.fields fr.frags)))
          parent.fields }
  | none => parent

/-- End-of-input flush: unterminated blocks remain reachable through the
aliased directives in the source, so every open frame is attached in turn. -/
def flushFrames (stack : List PFrame) : Option PFrame :=
  match stack with
  | [] => none
  | fr :: rest => some (rest.foldl (fun acc p => flushOnto acc p) fr)

/-- One line of the parseQuery dispatch (index.ts:145–329), tried in the
source order: trailing-comma strip, inline skip, inline include, inline
default, inline transform, inline block, fragment spread, block open,
block close, alias or computed field, bare field.  The dead re-test of the
inline-block regex at index.ts:283 (it can only re-fail) is omitted. -/
def plStep (stack : List PFrame) (line0 : String) : Except ShapeErr (List PFrame) :=
  let line := strTrim (if strEndsWith line0 "," then line0.dropRight 1 else line0)
  if let some (fn, e) := matchCondDirective "@skip(if:".toList line.toList then
    Except.ok (topAssign stack fn (QField.dir (QDirective.mk none (some e) none none none
      none none none none)))
  else if let some (fn, e) := matchCondDirective "@include(if:".toList line.toList then
    Except.ok (topAssign stack fn (QField.dir (QDirective.mk none none (some e) none none
      none none none none)))
  else if let some (v, rest) := matchDefaultAux [] line.toList then
    Except.ok (topAssign stack (strTrim ⟨rest⟩) (QField.dir (QDirective.mk none none
      none none none (some (vStr v)) none none none)))
  else if let some (al, p, fn) := matchTransformInline line.toList then
    Except.ok (topAssign stack al (QField.dir (QDirective.mk (some p) none none none none
      none (some fn) none none)))
  else if let some (key, argsP, inner) := matchInlineBlock line.toList then
    let nf := processInnerFields (scanFieldToks (inner.length + 1) inner.toList)
    let d0 := QDirective.mk none none none (some (QTree.mk nf.1 nf.2)) none none none none none
    match argsP with
    | some s =>
        match parseArgs (strTrim s) with
        | Except.error e => Except.error e
        | Except.ok args => Except.ok (topAssign stack key (QField.dir (applyArgs d0 args)))
    | none => Except.ok (topAssign stack key (QField.dir d0))
  else if strStartsWith line "..." then
    Except.ok (topFrag stack (strTrim (line.drop 3)))
  else if strEndsWith line "\x7b" then
    let header0 := strTrim (line.dropRight 1)
    let (skipE, header1) := extractHeaderCond "@skip(if:".toList header0
    let (inclE, header) := extractHeaderCond "@include(if:".toList header1
    let d0 := QDirective.mk none skipE inclE none none none none none none
    match matchParenHeader header.toList with
    | some (key, argsStr) =>
        match parseArgs (strTrim argsStr) with
        | Except.error e => Except.error e
        | Except.ok args =>
            Except.ok (PFrame.mk [] [] (some (key, applyArgs d0 args)) :: stack)
    | none => Except.ok (PFrame.mk [] [] (some (header, d0)) :: stack)
  else if line = "\x7d" then Except.ok (popFrame stack)
  else if let some (al, expr) := matchAlias line.toList then
    if strContainsChar expr '.' ∨ strContainsChar expr '[' then
      Except.ok (topAssign stack al (QField.fn expr))
    else
      Except.ok (topAssign stack al (QField.dir (QDirective.mk (some expr) none none none
        none none none none none)))
  else Except.ok (topAssign stack line (QField.str line))

/-- Embedding of parseQuery (index.ts:136): split into trimmed non-empty
non-comment lines, run the dispatch with a frame stack, flush. -/
def parseQuery (queryStr : String) : Except ShapeErr QTree :=
  let lines := ((strSplitOnChar '\n' queryStr).map strTrim).filter
    (fun l => l ≠ "" ∧ ¬ (strStartsWith l "#"))
  let st :=
    lines.foldl
      (fun acc l =>
        match acc with
        | Except.error e => Except.error e
        | Except.ok st => plStep st l)
      (Except.ok [PFrame.mk [] [] none])
  match st with
  | Except.error e => Except.error e
  | Except.ok st' =>
      match flushFrames st' with
      | some f => Except.ok (QTree.mk f.fields f.frags)
      | none => Except.ok (QTree.mk [] [])

/-- shape on a textual query (the typeof query === "string" entry path of
index.ts:342): compile, then walk; a compiler exception propagates. -/
def shapeText (fuel : Nat) (data : Value) (queryStr : String)
    (frags : List (String × QTree)) : Except ShapeErr Value :=
  match parseQuery queryStr with
  | Except.error e => Except.error e
  | Except.ok t => shape fuel data t frags none none

/-! ## Graph model of cyclic data (for claim C3)

The tree type Value cannot represent a JS object that references itself,
so the cyclicity claim is settled over a store model: data values are
primitives or references into a finite store of object nodes, and the
relevant slice of the engine (string literals resolved through the
evaluator, path resolver and auto-resolve, plain nested query objects, the
directive key fallback) is transported to it unchanged.  Array pipelines
and fragments are not represented — the cyclicity claims do not involve
them.  A reference appearing as a leaf would be emitted as the (possibly
cyclic) object itself in JS; the tree-shaped output flattens it to null;
no theorem exercises that case. -/

inductive SVal where
  | sNull
  | sUndef
  | sBool (b : Bool)
  | sNum (n : Int)
  | sStr (s : String)
  | sRef (a : Nat)
  | sEmptyObj
deriving Repr, DecidableEq

/-- A store: node a holds the own fields of one object. -/
def Store := List (List (String × SVal))

def sNullish : SVal → Bool
  | SVal.sNull => true
  | SVal.sUndef => true
  | _ => false

def isSUndef : SVal → Bool
  | SVal.sUndef => true
  | _ => false

def isSNull : SVal → Bool
  | SVal.sNull => true
  | _ => false

/-- typeof v === "object" && v !== null over the store model. -/
def sIsObj : SVal → Bool
  | SVal.sRef _ => true
  | SVal.sEmptyObj => true
  | _ => false

def storeNode (st : Store) (a : Nat) : List (String × SVal) :=
  (List.get? st a).getD []

def sLookup (k : String) : List (String × SVal) → Option SVal
  | [] => none
  | (k', v) :: rest => if k' = k then some v else sLookup k rest

/-- Property read over the store. -/
def sIndex (st : Store) (v : SVal) (k : String) : SVal :=
  match v with
  | SVal.sRef a => (sLookup k (storeNode st a)).getD SVal.sUndef
  | _ => SVal.sUndef

def sHasProp (st : Store) (v : SVal) (k : String) : Bool :=
  match v with
  | SVal.sRef a => (sLookup k (storeNode st a)).isSome
  | _ => false

/-- Own entries, for the auto-resolve scan. -/
def sOwnEntries (st : Store) : SVal → List SVal
  | SVal.sRef a => (storeNode st a).map Prod.snd
  | _ => []

/-- The auto-resolve scan loop over the store. -/
def sScan (st : Store) (ar : SVal → String → Option SVal) (key : String) :
    List SVal → Option SVal
  | [] => some SVal.sNull
  | val :: rest =>
      if sIsObj val then
        match ar val key with
        | none => none
        | some found =>
            if ! isSNull found then some found else sScan st ar key rest
      else sScan st ar key rest

/-- autoResolve transported to the store: same algorithm as autoResolveF,
but a cyclic reference chain now genuinely exhausts every fuel. -/
def autoResolveS : Nat → Store → SVal → String → Option SVal
  | 0, _, _, _ => none
  | fuel + 1, st, obj, key =>
      if sNullish obj then some SVal.sNull
      else if ! isSUndef (sIndex st obj key) then some (sIndex st obj key)
      else
        sScan st (autoResolveS fuel st) key (sOwnEntries st obj)

/-- getByPath over the store. -/
def getByPathS (st : Store) (obj : SVal) (path : String) : SVal :=
  let r := (strSplitOnChar '.' path).foldl
    (fun acc k => if sNullish acc then SVal.sUndef else sIndex st acc k) obj
  if sNullish r then SVal.sNull else r

/-- Identifier-and-member slice of the expression evaluator over the store
(the only expression forms the cyclicity examples use; other constructs
evaluate to a thrown error, hence null). -/
def evalCoreS (st : Store) (data root : SVal) : Expr → Except Unit SVal
  | Expr.lit v =>
      match v with
      | vNull => Except.ok SVal.sNull
      | vUndef => Except.ok SVal.sUndef
      | vBool b => Except.ok (SVal.sBool b)
      | vNum n => Except.ok (SVal.sNum n)
      | vStr s => Except.ok (SVal.sStr s)
      | _ => Except.error ()
  | Expr.identE s =>
      if sHasProp st root s then Except.ok (sIndex st root s)
      else if sHasProp st data s then Except.ok (sIndex st data s)
      else if s = "data" then Except.ok data
      else if s = "root" then Except.ok root
      else Except.error ()
  | Expr.member e f =>
      match evalCoreS st data root e with
      | Except.error u => Except.error u
      | Except.ok v =>
          if sNullish v then Except.error () else Except.ok (sIndex st v f)
  | _ => Except.error ()

/-- evalNestedField over the store. -/
def evalNestedFieldS (expr : String) (st : Store) (data root : SVal) : SVal :=
  if sNullish data ∨ sNullish root then SVal.sNull
  else match parseExpr expr with
    | none => SVal.sNull
    | some e =>
        match evalCoreS st data root e with
        | Except.ok v => v
        | Except.error _ => SVal.sNull

/-- Leaf emission from the store into the output tree (primitives only;
see the section comment about reference leaves). -/
def svalLeaf : SVal → Value
  | SVal.sNull => vNull
  | SVal.sUndef => vUndef
  | SVal.sBool b => vBool b
  | SVal.sNum n => vNum n
  | SVal.sStr s => vStr s
  | SVal.sRef _ => vNull
  | SVal.sEmptyObj => vObj []

/-- The shaping walk transported to the store, covering string-literal
fields, computed fields, plain nested query objects and the directive key
fallback with nested descent.  The fuel decreases on nested recursion and
is handed to auto-resolve; none means the source run is still recursing
(the walk itself is bounded by the query, so only auto-resolve on cyclic
data can force none at every fuel). -/
def shapeSFieldVal (arFuel : Nat) (st : Store) (shS : SVal → QTree → Option Value)
    (safe root : SVal) (key : String) : QField → Option Value
  | QField.fn e => some (svalLeaf (evalNestedFieldS e st safe root))
  | QField.str s =>
      let ev := evalNestedFieldS s st safe root
      if ! sNullish ev then some (svalLeaf ev)
      else
        let g := getByPathS st safe s
        if ! sNullish g then some (svalLeaf g)
        else
          match autoResolveS arFuel st root s with
          | none => none
          | some ar => some (svalLeaf (if sNullish ar then SVal.sNull else ar))
  | QField.obj t =>
      let nv := sIndex st safe key
      shS (if sNullish nv then SVal.sEmptyObj else nv) t
  | QField.dir d =>
      let direct := sIndex st safe key
      let value : Option SVal :=
        if ! sNullish direct then some direct else autoResolveS arFuel st root key
      match value with
      | none => none
      | some v =>
          if sIsObj v then
            match d.nested with
            | some t => shS v t
            | none => some (svalLeaf v)
          else some (svalLeaf (if sNullish v then SVal.sNull else v))
  | QField.other _ =>
      some (svalLeaf (if sNullish (sIndex st safe key) then SVal.sNull
        else sIndex st safe key))

def shapeSLoop (fv : String → QField → Option Value) :
    List (String × QField) → List (String × Value) → Option (List (String × Value))
  | [], acc => some acc
  | (k, f) :: rest, acc =>
      if k = "__fragments" then shapeSLoop fv rest acc
      else
        match fv k f with
        | none => none
        | some v => shapeSLoop fv rest (objSet k v acc)

def shapeS : Nat → Store → SVal → QTree → SVal → Option Value
  | 0, _, _, _, _ => none
  | fuel + 1, st, data, q, root =>
      let safe := if sNullish data then SVal.sEmptyObj else data
      match shapeSLoop
          (fun key f => shapeSFieldVal fuel st
            (fun d t => shapeS fuel st d t root) safe root key f)
          q.fields [] with
      | none => none
      | some fs => some (vObj fs)

/-! ## Definitions transcribed from the claims under test

Each definition below follows the words of a claim (or of the spec sentence
the claim quotes), to be compared with the embedded code.  They are used
only in claim theorems and counterexamples. -/

/-- Property lookup in a shaped output object. -/
def vLookup (v : Value) (k : String) : Option Value :=
  match v with
  | vObj fs => objLookup k fs
  | _ => none

/-- Claim C5 wording: resolve a Literal field via the Path Resolver against
data; if null, the Path Resolver against root; if still null, Auto-Resolve
against root; never expression evaluation.  Auto-resolve is fuelled as in
the embedding. -/
def literalResolveSpec (n : Nat) (data root : Value) (path : String) : Option Value :=
  let g1 := getByPath data path
  if ! jsNullish g1 then some g1
  else
    let g2 := getByPath root path
    if ! jsNullish g2 then some g2
    else
      match autoResolveF n root path with
      | none => none
      | some ar => some (vCoalesce ar vNull)

/-- Claim C8 wording, one fallback alternative: a quoted literal segment
yields that literal string; any other segment is resolved via path lookup
on data, then Auto-Resolve on root, then expression evaluation. -/
def fallbackAltSpec (n : Nat) (data root : Value) (part : String) : Option Value :=
  if strStartsWith part "\"" ∧ strEndsWith part "\"" ∧ 2 ≤ part.length then
    some (vStr ((part.drop 1).dropRight 1))
  else
    let g1 := getByPath data part
    if ! jsNullish g1 then some g1
    else
      match autoResolveF n root part with
      | none => none
      | some ar =>
          if ! jsNullish ar then some ar
          else some (evalNestedField part data root)

/-- Claim C4 wording: the filter keeps exactly the items for which the
filter expression evaluates to strictly true. -/
def isTrueV : Value → Bool
  | vBool true => true
  | _ => false

def strictTrueSelect (f : String) (root : Value) (xs : List Value) : List Value :=
  xs.filter (fun it => isTrueV (evalNestedField f it root))

/-- Claim C6 wording: the output key k that introduced the recursion level
is bound in the expression scope to the current data value (strongest
binding), with current-data keys taking precedence over root keys as the
quoted spec sentence states. -/
def pkLookup (pk : String) (data root : Value) (s : String) : Except Unit Value :=
  if s = pk then Except.ok data
  else if hasProp data s then Except.ok (jsIndex data s)
  else if hasProp root s then Except.ok (jsIndex root s)
  else Except.error ()

def evalWithParentScope (expr : String) (data root : Value) (pk : String) : Value :=
  match parseExpr expr with
  | none => vNull
  | some e =>
      match evalCore (pkLookup pk data root) e with
      | Except.ok v => v
      | Except.error _ => vNull

/-- Claim C9 wording, the direct check: reference[key] when that lookup
succeeds (the property is present, i.e. not absent/undefined). -/
def directHit (ref : Value) (key : String) : Option Value :=
  if isUndef (jsIndex ref key) then none else some (jsIndex ref key)

/-- Claim C9 wording, the search: iterate the own values in enumeration
order restricted to those that are objects or arrays, recurse into each,
and return the first non-null match; null when exhausted. -/
def specSearch (ar : Value → String → Option Value) (key : String) :
    List Value → Option Value
  | [] => some vNull
  | v :: rest =>
      match ar v key with
      | none => none
      | some r => if isNullV r then specSearch ar key rest else some r

/-- Claim C9 wording assembled: a pre-order depth-first search with the
direct check first at every level. -/
def autoResolveSpecF : Nat → Value → String → Option Value
  | 0, _, _ => none
  | fuel + 1, ref, key =>
      if jsNullish ref then some vNull
      else
        match directHit ref key with
        | some v => some v
        | none =>
            specSearch (autoResolveSpecF fuel) key
              ((jsOwnEntries ref).filter isObjTy)

/-! ## Deep fragment-freedom (for the never-raises theorem) -/

mutual

def fragFreeT : QTree → Bool
  | QTree.mk fs fr => fr.isEmpty && fragFreeFs fs

def fragFreeFs : List (String × QField) → Bool
  | [] => true
  | (_, f) :: rest => fragFreeFd f && fragFreeFs rest

def fragFreeFd : QField → Bool
  | QField.dir (QDirective.mk _ _ _ ne _ _ _ _ _) =>
      match ne with
      | some t => fragFreeT t
      | none => true
  | QField.obj t => fragFreeT t
  | _ => true

end

/-! ## Concrete inputs for the cyclicity claim -/

/-- The cyclic datum of claim C3: node 0 is an object whose self property
refers back to node 0, i.e. the JS value let d = (name: "root"); d.self = d. -/
def cycStore : Store := [[("name", SVal.sStr "root"), ("self", SVal.sRef 0)]]

/-- The query of the C3 example, as the query object
(name: "name", self: (name: "name")). -/
def q3good : QTree :=
  QTree.mk [("name", QField.str "name"),
    ("self", QField.obj (QTree.mk [("name", QField.str "name")] []))] []

/-- A query selecting a key absent from the cyclic datum; its resolution
falls through to auto-resolve. -/
def q3bad : QTree := QTree.mk [("missing", QField.str "missing")] []

/-- Divergence over the store model: no recursion depth whatsoever
produces a result — the mark of a non-terminating source run. -/
def shapeSDiverges (st : Store) (data : SVal) (q : QTree) (root : SVal) : Prop :=
  ∀ fuel, shapeS fuel st data q root = none

/-- Boolean success test for an Except result. -/
def exceptOk {ε α : Type} : Except ε α → Bool
  | Except.ok _ => true
  | Except.error _ => false

/-! ## Basic lemmas about property assignment -/

theorem objLookup_objSet_self (k : String) (v : Value) (fs : List (String × Value)) :
    objLookup k (objSet k v fs) = some v := by
  induction fs with
  | nil => simp [objSet, objLookup]
  | cons hd tl ih =>
      obtain ⟨k', v'⟩ := hd
      by_cases h : k' = k
      · simp [objSet, objLookup, h]
      · simp [objSet, objLookup, h, ih]

theorem objLookup_objSet_ne (k k' : String) (v : Value) (fs : List (String × Value))
    (h : k' ≠ k) : objLookup k' (objSet k v fs) = objLookup k' fs := by
  induction fs with
  | nil => simp [objSet, objLookup, Ne.symm h]
  | cons hd tl ih =>
      obtain ⟨k0, v0⟩ := hd
      by_cases h0 : k0 = k
      · subst h0
        simp [objSet, objLookup, Ne.symm h]
      · simp [objSet, objLookup, h0, ih]

theorem vLookup_jsSetProp_self (fs : List (String × Value)) (k : String) (v : Value) :
    vLookup (jsSetProp (vObj fs) k v) k = some v := by
  simp [jsSetProp, vLookup, objLookup_objSet_self]

theorem vLookup_jsSetProp_ne (fs : List (String × Value)) (k k' : String) (v : Value)
    (h : k' ≠ k) : vLookup (jsSetProp (vObj fs) k v) k' = vLookup (vObj fs) k' := by
  simp [jsSetProp, vLookup, objLookup_objSet_ne _ _ _ _ h]

theorem vLookup_jsSetProp_isSome (fs : List (String × Value)) (k k' : String) (v : Value)
    (h : (vLookup (vObj fs) k').isSome) :
    (vLookup (jsSetProp (vObj fs) k v) k').isSome := by
  by_cases hk : k' = k
  · subst hk; simp [vLookup_jsSetProp_self]
  · rw [vLookup_jsSetProp_ne _ _ _ _ hk]; exact h

/-! ## Lemmas about the shaping field loop -/

theorem sfl_vObj (n : Nat) (sh : Value → QTree → String → Except ShapeErr Value)
    (data root : Value) :
    ∀ (flds : List (String × QField)) (fs : List (String × Value)) (out : Value),
    shapeFieldsLoop n sh data root flds (vObj fs) = Except.ok out →
    ∃ fs', out = vObj fs' := by
  intro flds
  induction flds with
  | nil =>
      intro fs out h
      simp [shapeFieldsLoop] at h
      exact ⟨fs, h.symm⟩
  | cons hd tl ih =>
      intro fs out h
      obtain ⟨k, f⟩ := hd
      by_cases hk : k = "__fragments"
      · simp [shapeFieldsLoop, hk] at h
        exact ih fs out h
      · simp [shapeFieldsLoop, hk] at h
        cases hv : shapeFieldValue n sh data root k f with
        | error e => rw [hv] at h; simp at h
        | ok v =>
            rw [hv] at h
            simp [jsSetProp] at h
            exact ih _ out h

theorem sfl_preserve (n : Nat) (sh : Value → QTree → String → Except ShapeErr Value)
    (data root : Value) (k : String) :
    ∀ (flds : List (String × QField)) (fs : List (String × Value)) (out : Value),
    shapeFieldsLoop n sh data root flds (vObj fs) = Except.ok out →
    (vLookup (vObj fs) k).isSome → (vLookup out k).isSome := by
  intro flds
  induction flds with
  | nil =>
      intro fs out h hs
      simp [shapeFieldsLoop] at h
      rw [← h]; exact hs
  | cons hd tl ih =>
      intro fs out h hs
      obtain ⟨k0, f⟩ := hd
      by_cases hk : k0 = "__fragments"
      · simp [shapeFieldsLoop, hk] at h
        exact ih fs out h hs
      · simp [shapeFieldsLoop, hk] at h
        cases hv : shapeFieldValue n sh data root k0 f with
        | error e => rw [hv] at h; simp at h
        | ok v =>
            rw [hv] at h
            simp [jsSetProp] at h
            exact ih _ out h (vLookup_jsSetProp_isSome fs k0 k v hs)

theorem sfl_sets (n : Nat) (sh : Value → QTree → String → Except ShapeErr Value)
    (data root : Value) (k : String) (f : QField) :
    ∀ (flds : List (String × QField)) (fs : List (String × Value)) (out : Value),
    (k, f) ∈ flds → k ≠ "__fragments" →
    shapeFieldsLoop n sh data root flds (vObj fs) = Except.ok out →
    (vLookup out k).isSome := by
  intro flds
  induction flds with
  | nil => intro fs out hmem; simp at hmem
  | cons hd tl ih =>
      intro fs out hmem hfr h
      obtain ⟨k0, f0⟩ := hd
      rcases List.mem_cons.mp hmem with heq | hmem'
      · obtain ⟨hk0, hf0⟩ := Prod.mk.injEq .. ▸ heq
        subst hk0
        simp [shapeFieldsLoop, hfr] at h
        cases hv : shapeFieldValue n sh data root k f0 with
        | error e => rw [hv] at h; simp at h
        | ok v =>
            rw [hv] at h
            simp [jsSetProp] at h
            exact sfl_preserve n sh data root k tl _ out h
              (by simp [vLookup, objLookup_objSet_self])
      · by_cases hk : k0 = "__fragments"
        · simp [shapeFieldsLoop, hk] at h
          exact ih fs out hmem' hfr h
        · simp [shapeFieldsLoop, hk] at h
          cases hv : shapeFieldValue n sh data root k0 f0 with
          | error e => rw [hv] at h; simp at h
          | ok v =>
              rw [hv] at h
              simp [jsSetProp] at h
              exact ih _ out hmem' hfr h

theorem sfl_untouched (n : Nat) (sh : Value → QTree → String → Except ShapeErr Value)
    (data root : Value) (k : String) :
    ∀ (flds : List (String × QField)) (fs : List (String × Value)) (out : Value),
    (∀ p ∈ flds, p.1 ≠ k) →
    shapeFieldsLoop n sh data root flds (vObj fs) = Except.ok out →
    vLookup out k = vLookup (vObj fs) k := by
  intro flds
  induction flds with
  | nil =>
      intro fs out _ h
      simp [shapeFieldsLoop] at h
      rw [← h]
  | cons hd tl ih =>
      intro fs out hne h
      obtain ⟨k0, f0⟩ := hd
      have hk0 : k0 ≠ k := hne (k0, f0) (List.mem_cons_self _ _)
      by_cases hk : k0 = "__fragments"
      · simp [shapeFieldsLoop, hk] at h
        exact ih fs out (fun p hp => hne p (List.mem_cons_of_mem _ hp)) h
      · simp [shapeFieldsLoop, hk] at h
        cases hv : shapeFieldValue n sh data root k0 f0 with
        | error e => rw [hv] at h; simp at h
        | ok v =>
            rw [hv] at h
            simp [jsSetProp] at h
            rw [ih _ out (fun p hp => hne p (List.mem_cons_of_mem _ hp)) h]
            exact vLookup_jsSetProp_ne fs k0 k v (Ne.symm hk0)

theorem sfl_value (n : Nat) (sh : Value → QTree → String → Except ShapeErr Value)
    (data root : Value) (k : String) (f : QField) :
    ∀ (flds : List (String × QField)) (fs : List (String × Value)) (out : Value),
    (flds.map Prod.fst).Nodup → (k, f) ∈ flds → k ≠ "__fragments" →
    shapeFieldsLoop n sh data root flds (vObj fs) = Except.ok out →
    ∃ v, shapeFieldValue n sh data root k f = Except.ok v ∧ vLookup out k = some v := by
  intro flds
  induction flds with
  | nil => intro fs out _ hmem; simp at hmem
  | cons hd tl ih =>
      intro fs out hnd hmem hfr h
      obtain ⟨k0, f0⟩ := hd
      have hnd' : (tl.map Prod.fst).Nodup := (List.nodup_cons.mp hnd).2
      rcases List.mem_cons.mp hmem with heq | hmem'
      · obtain ⟨hk0, hf0⟩ := Prod.mk.injEq .. ▸ heq
        subst hk0; subst hf0
        have hknotin : k ∉ tl.map Prod.fst := (List.nodup_cons.mp hnd).1
        simp [shapeFieldsLoop, hfr] at h
        cases hv : shapeFieldValue n sh data root k f with
        | error e => rw [hv] at h; simp at h
        | ok v =>
            rw [hv] at h
            simp [jsSetProp] at h
            refine ⟨v, rfl, ?_⟩
            rw [sfl_untouched n sh data root k tl _ out ?_ h]
            · simp [vLookup, objLookup_objSet_self]
            · intro p hp hpk
              exact hknotin (hpk ▸ List.mem_map_of_mem Prod.fst hp)
      · by_cases hk : k0 = "__fragments"
        · simp [shapeFieldsLoop, hk] at h
          exact ih fs out hnd' hmem' hfr h
        · simp [shapeFieldsLoop, hk] at h
          cases hv : shapeFieldValue n sh data root k0 f0 with
          | error e => rw [hv] at h; simp at h
          | ok v =>
              rw [hv] at h
              simp [jsSetProp] at h
              exact ih _ out hnd' hmem' hfr h

/-! ## Lemmas about deep merge and fragment expansion -/

theorem mfl_vObj (md : Value → Value → Except ShapeErr Value) :
    ∀ (sf : List (String × Value)) (fs : List (String × Value)) (out : Value),
    mergeFieldsLoop md (vObj fs) sf = Except.ok out → ∃ fs', out = vObj fs' := by
  intro sf
  induction sf with
  | nil =>
      intro fs out h
      simp [mergeFieldsLoop] at h
      exact ⟨fs, h.symm⟩
  | cons hd tl ih =>
      intro fs out h
      obtain ⟨k, v⟩ := hd
      by_cases hk : k = "__fragments"
      · simp [mergeFieldsLoop, hk] at h
        exact ih fs out h
      · by_cases hm : isMergeObj v = true
        · simp [mergeFieldsLoop, hk, hm, jsNullish] at h
          by_cases ht : jsTruthy (jsIndex (vObj fs) k) = true
          · simp [ht] at h
            cases hmd : md (jsIndex (vObj fs) k) v with
            | error e => simp only [hmd] at h; simp at h
            | ok m =>
                simp only [hmd] at h
                simp [jsSetProp] at h
                exact ih _ out h
          · simp [ht, jsSetProp] at h
            cases hmd : md (jsIndex (vObj (objSet k (vObj []) fs)) k) v with
            | error e => simp only [hmd] at h; simp at h
            | ok m =>
                simp only [hmd, jsSetProp] at h
                exact ih _ out h
        · simp [mergeFieldsLoop, hk, hm, jsNullish, jsSetProp] at h
          exact ih _ out h

theorem mdl_vObj (fuel : Nat) (fs : List (String × Value)) (src out : Value)
    (h : mergeDeepF fuel (vObj fs) src = Except.ok out) : ∃ fs', out = vObj fs' := by
  cases fuel with
  | zero => simp [mergeDeepF] at h
  | succ m =>
      cases src with
      | vObj sf => exact mfl_vObj (mergeDeepF m) sf fs out h
      | vNull => simp [mergeDeepF] at h; exact ⟨fs, h.symm⟩
      | vUndef => simp [mergeDeepF] at h; exact ⟨fs, h.symm⟩
      | vBool b => simp [mergeDeepF] at h; exact ⟨fs, h.symm⟩
      | vNum x => simp [mergeDeepF] at h; exact ⟨fs, h.symm⟩
      | vStr s => simp [mergeDeepF] at h; exact ⟨fs, h.symm⟩
      | vArr xs => simp [mergeDeepF] at h; exact ⟨fs, h.symm⟩

theorem mfl_preserve (md : Value → Value → Except ShapeErr Value) (k : String) :
    ∀ (sf : List (String × Value)) (fs : List (String × Value)) (out : Value),
    mergeFieldsLoop md (vObj fs) sf = Except.ok out →
    (vLookup (vObj fs) k).isSome → (vLookup out k).isSome := by
  intro sf
  induction sf with
  | nil =>
      intro fs out h hs
      simp [mergeFieldsLoop] at h
      rw [← h]; exact hs
  | cons hd tl ih =>
      intro fs out h hs
      obtain ⟨k0, v⟩ := hd
      by_cases hk : k0 = "__fragments"
      · simp [mergeFieldsLoop, hk] at h
        exact ih fs out h hs
      · by_cases hm : isMergeObj v = true
        · simp [mergeFieldsLoop, hk, hm, jsNullish] at h
          by_cases ht : jsTruthy (jsIndex (vObj fs) k0) = true
          · simp [ht] at h
            cases hmd : md (jsIndex (vObj fs) k0) v with
            | error e => simp only [hmd] at h; simp at h
            | ok m =>
                simp only [hmd] at h
                simp [jsSetProp] at h
                exact ih _ out h (vLookup_jsSetProp_isSome fs k0 k m hs)
          · simp [ht, jsSetProp] at h
            cases hmd : md (jsIndex (vObj (objSet k0 (vObj []) fs)) k0) v with
            | error e => simp only [hmd] at h; simp at h
            | ok m =>
                simp only [hmd, jsSetProp] at h
                exact ih _ out h
                  (vLookup_jsSetProp_isSome _ k0 k m
                    (vLookup_jsSetProp_isSome fs k0 k (vObj []) hs))
        · simp [mergeFieldsLoop, hk, hm, jsNullish, jsSetProp] at h
          exact ih _ out h (vLookup_jsSetProp_isSome fs k0 k v hs)

theorem mfl_sets (md : Value → Value → Except ShapeErr Value) (k : String) (v : Value) :
    ∀ (sf : List (String × Value)) (fs : List (String × Value)) (out : Value),
    (k, v) ∈ sf → k ≠ "__fragments" →
    mergeFieldsLoop md (vObj fs) sf = Except.ok out →
    (vLookup out k).isSome := by
  intro sf
  induction sf with
  | nil => intro fs out hmem; simp at hmem
  | cons hd tl ih =>
      intro fs out hmem hfr h
      obtain ⟨k0, v0⟩ := hd
      rcases List.mem_cons.mp hmem with heq | hmem'
      · obtain ⟨hk0, hv0⟩ := Prod.mk.injEq .. ▸ heq
        subst hk0; subst hv0
        by_cases hm : isMergeObj v = true
        · simp [mergeFieldsLoop, hfr, hm, jsNullish] at h
          by_cases ht : jsTruthy (jsIndex (vObj fs) k) = true
          · simp [ht] at h
            cases hmd : md (jsIndex (vObj fs) k) v with
            | error e => simp only [hmd] at h; simp at h
            | ok m =>
                simp only [hmd] at h
                simp [jsSetProp] at h
                exact mfl_preserve md k tl _ out h
                  (by simp [vLookup, objLookup_objSet_self])
          · simp [ht, jsSetProp] at h
            cases hmd : md (jsIndex (vObj (objSet k (vObj []) fs)) k) v with
            | error e => simp only [hmd] at h; simp at h
            | ok m =>
                simp only [hmd, jsSetProp] at h
                exact mfl_preserve md k tl _ out h
                  (by simp [vLookup, jsSetProp, objLookup_objSet_self])
        · simp [mergeFieldsLoop, hfr, hm, jsNullish, jsSetProp] at h
          exact mfl_preserve md k tl _ out h
            (by simp [vLookup, objLookup_objSet_self])
      · by_cases hk : k0 = "__fragments"
        · simp [mergeFieldsLoop, hk] at h
          exact ih fs out hmem' hfr h
        · by_cases hm : isMergeObj v0 = true
          · simp [mergeFieldsLoop, hk, hm, jsNullish] at h
            by_cases ht : jsTruthy (jsIndex (vObj fs) k0) = true
            · simp [ht] at h
              cases hmd : md (jsIndex (vObj fs) k0) v0 with
              | error e => simp only [hmd] at h; simp at h
              | ok m =>
                  simp only [hmd] at h
                  simp [jsSetProp] at h
                  exact ih _ out hmem' hfr h
            · simp [ht, jsSetProp] at h
              cases hmd : md (jsIndex (vObj (objSet k0 (vObj []) fs)) k0) v0 with
              | error e => simp only [hmd] at h; simp at h
              | ok m =>
                  simp only [hmd, jsSetProp] at h
                  exact ih _ out hmem' hfr h
          · simp [mergeFieldsLoop, hk, hm, jsNullish, jsSetProp] at h
            exact ih _ out hmem' hfr h

theorem mdl_preserve (fuel : Nat) (k : String) (fs : List (String × Value))
    (src out : Value) (h : mergeDeepF fuel (vObj fs) src = Except.ok out)
    (hs : (vLookup (vObj fs) k).isSome) : (vLookup out k).isSome := by
  cases fuel with
  | zero => simp [mergeDeepF] at h
  | succ m =>
      cases src with
      | vObj sf => exact mfl_preserve (mergeDeepF m) k sf fs out h hs
      | vNull => simp [mergeDeepF] at h; rw [← h]; exact hs
      | vUndef => simp [mergeDeepF] at h; rw [← h]; exact hs
      | vBool b => simp [mergeDeepF] at h; rw [← h]; exact hs
      | vNum x => simp [mergeDeepF] at h; rw [← h]; exact hs
      | vStr s => simp [mergeDeepF] at h; rw [← h]; exact hs
      | vArr xs => simp [mergeDeepF] at h; rw [← h]; exact hs

theorem mdl_sets (fuel : Nat) (k : String) (v : Value) (fs gfs : List (String × Value))
    (out : Value) (h : mergeDeepF fuel (vObj fs) (vObj gfs) = Except.ok out)
    (hmem : (k, v) ∈ gfs) (hfr : k ≠ "__fragments") : (vLookup out k).isSome := by
  cases fuel with
  | zero => simp [mergeDeepF] at h
  | succ m => exact mfl_sets (mergeDeepF m) k v gfs fs out hmem hfr h

/-- The accumulated fragment result stays an object through the loop. -/
theorem sfrl_vObj (shFrag : QTree → Except ShapeErr Value) (fuel : Nat)
    (frags : List (String × QTree)) :
    ∀ (names : List String) (fs : List (String × Value)) (out : Value),
    shapeFragsLoop shFrag (mergeDeepF fuel) frags names (vObj fs) = Except.ok out →
    ∃ fs', out = vObj fs' := by
  intro names
  induction names with
  | nil =>
      intro fs out h
      simp [shapeFragsLoop] at h
      exact ⟨fs, h.symm⟩
  | cons name rest ih =>
      intro fs out h
      cases hf : fragLookup name frags with
      | none => simp only [shapeFragsLoop, hf] at h; exact ih fs out h
      | some ft =>
          simp only [shapeFragsLoop, hf] at h
          cases hsh : shFrag ft with
          | error e => simp only [hsh] at h; simp at h
          | ok fr =>
              simp only [hsh] at h
              cases hmd : mergeDeepF fuel (vObj fs) fr with
              | error e => simp only [hmd] at h; simp at h
              | ok r' =>
                  simp only [hmd] at h
                  obtain ⟨fs', hfs'⟩ := mdl_vObj fuel fs fr r' hmd
                  subst hfs'
                  exact ih fs' out h

theorem sfrl_preserve (shFrag : QTree → Except ShapeErr Value) (fuel : Nat)
    (frags : List (String × QTree)) (k : String) :
    ∀ (names : List String) (fs : List (String × Value)) (out : Value),
    shapeFragsLoop shFrag (mergeDeepF fuel) frags names (vObj fs) = Except.ok out →
    (vLookup (vObj fs) k).isSome → (vLookup out k).isSome := by
  intro names
  induction names with
  | nil =>
      intro fs out h hs
      simp [shapeFragsLoop] at h
      rw [← h]; exact hs
  | cons name rest ih =>
      intro fs out h hs
      cases hf : fragLookup name frags with
      | none => simp only [shapeFragsLoop, hf] at h; exact ih fs out h hs
      | some ft =>
          simp only [shapeFragsLoop, hf] at h
          cases hsh : shFrag ft with
          | error e => simp only [hsh] at h; simp at h
          | ok fr =>
              simp only [hsh] at h
              cases hmd : mergeDeepF fuel (vObj fs) fr with
              | error e => simp only [hmd] at h; simp at h
              | ok r' =>
                  simp only [hmd] at h
                  obtain ⟨fs', hfs'⟩ := mdl_vObj fuel fs fr r' hmd
                  subst hfs'
                  exact ih fs' out h (mdl_preserve fuel k fs fr _ hmd hs)

/-- A fragment found in the registry is shaped successfully whenever the
whole loop succeeds. -/
theorem sfrl_extract (shFrag : QTree → Except ShapeErr Value) (fuel : Nat)
    (frags : List (String × QTree)) (name : String) (ft : QTree) :
    ∀ (names : List String) (fs : List (String × Value)) (out : Value),
    name ∈ names → fragLookup name frags = some ft →
    shapeFragsLoop shFrag (mergeDeepF fuel) frags names (vObj fs) = Except.ok out →
    ∃ fr, shFrag ft = Except.ok fr := by
  intro names
  induction names with
  | nil => intro fs out hmem; simp at hmem
  | cons name0 rest ih =>
      intro fs out hmem hreg h
      rcases List.mem_cons.mp hmem with heq | hmem'
      · subst heq
        simp only [shapeFragsLoop, hreg] at h
        cases hsh : shFrag ft with
        | error e => simp only [hsh] at h; simp at h
        | ok fr => exact ⟨fr, rfl⟩
      · cases hf : fragLookup name0 frags with
        | none => simp only [shapeFragsLoop, hf] at h; exact ih fs out hmem' hreg h
        | some ft0 =>
            simp only [shapeFragsLoop, hf] at h
            cases hsh : shFrag ft0 with
            | error e => simp only [hsh] at h; simp at h
            | ok fr =>
                simp only [hsh] at h
                cases hmd : mergeDeepF fuel (vObj fs) fr with
                | error e => simp only [hmd] at h; simp at h
                | ok r' =>
                    simp only [hmd] at h
                    obtain ⟨fs', hfs'⟩ := mdl_vObj fuel fs fr r' hmd
                    subst hfs'
                    exact ih fs' out hmem' hreg h

/-- A key merged in from a found fragment is present in the loop result. -/
theorem sfrl_sets (shFrag : QTree → Except ShapeErr Value) (fuel : Nat)
    (frags : List (String × QTree)) (name : String) (ft : QTree) (k : String)
    (v : Value) (gfs : List (String × Value)) :
    ∀ (names : List String) (fs : List (String × Value)) (out : Value),
    name ∈ names → fragLookup name frags = some ft →
    shFrag ft = Except.ok (vObj gfs) → (k, v) ∈ gfs → k ≠ "__fragments" →
    shapeFragsLoop shFrag (mergeDeepF fuel) frags names (vObj fs) = Except.ok out →
    (vLookup out k).isSome := by
  intro names
  induction names with
  | nil => intro fs out hmem; simp at hmem
  | cons name0 rest ih =>
      intro fs out hmem hreg hsh hmemg hfr h
      rcases List.mem_cons.mp hmem with heq | hmem'
      · subst heq
        simp only [shapeFragsLoop, hreg, hsh] at h
        cases hmd : mergeDeepF fuel (vObj fs) (vObj gfs) with
        | error e => simp only [hmd] at h; simp at h
        | ok r' =>
            simp only [hmd] at h
            obtain ⟨fs', hfs'⟩ := mdl_vObj fuel fs (vObj gfs) r' hmd
            subst hfs'
            exact sfrl_preserve shFrag fuel frags k rest fs' out h
              (mdl_sets fuel k v fs gfs _ hmd hmemg hfr)
      · cases hf : fragLookup name0 frags with
        | none => simp only [shapeFragsLoop, hf] at h; exact ih fs out hmem' hreg hsh hmemg hfr h
        | some ft0 =>
            simp only [shapeFragsLoop, hf] at h
            cases hsh0 : shFrag ft0 with
            | error e => simp only [hsh0] at h; simp at h
            | ok fr =>
                simp only [hsh0] at h
                cases hmd : mergeDeepF fuel (vObj fs) fr with
                | error e => simp only [hmd] at h; simp at h
                | ok r' =>
                    simp only [hmd] at h
                    obtain ⟨fs', hfs'⟩ := mdl_vObj fuel fs fr r' hmd
                    subst hfs'
                    exact ih fs' out hmem' hreg hsh hmemg hfr h

/-! ## Shape-level helper lemmas -/

theorem objLookup_mem (k : String) (v : Value) :
    ∀ fs : List (String × Value), objLookup k fs = some v → (k, v) ∈ fs := by
  intro fs
  induction fs with
  | nil => intro h; simp [objLookup] at h
  | cons hd tl ih =>
      intro h
      obtain ⟨k0, v0⟩ := hd
      by_cases hk : k0 = k
      · subst hk
        simp [objLookup] at h
        subst h
        exact List.mem_cons_self _ _
      · simp [objLookup, hk] at h
        exact List.mem_cons_of_mem _ (ih h)

/-- Every successful shaping result is a plain object. -/
theorem shape_ok_vObj (n : Nat) (data : Value) (q : QTree)
    (frags : List (String × QTree)) (r : Option Value) (ck : Option String)
    (out : Value) (h : shape n data q frags r ck = Except.ok out) :
    ∃ fs, out = vObj fs := by
  cases n with
  | zero => simp [shape] at h
  | succ m =>
      rw [shape] at h
      cases hfr : shapeFragsLoop
          (fun t => shape m data t frags (some (rootEff data r)) ck)
          (mergeDeepF m) frags q.frags (vObj []) with
      | error e => rw [hfr] at h; simp at h
      | ok r0 =>
          rw [hfr] at h
          simp at h
          obtain ⟨fs0, hfs0⟩ := sfrl_vObj _ m frags q.frags [] r0 hfr
          subst hfs0
          exact sfl_vObj m _ data (rootEff data r) q.fields fs0 out h

/-- Shape mirroring at one level: every key of the tree is present in a
successful output. -/
theorem shape_presence (n : Nat) (data : Value) (q : QTree)
    (frags : List (String × QTree)) (r : Option Value) (ck : Option String)
    (out : Value) (k : String) (f : QField)
    (h : shape n data q frags r ck = Except.ok out)
    (hmem : (k, f) ∈ q.fields) (hfr : k ≠ "__fragments") :
    (vLookup out k).isSome := by
  cases n with
  | zero => simp [shape] at h
  | succ m =>
      rw [shape] at h
      cases hfrl : shapeFragsLoop
          (fun t => shape m data t frags (some (rootEff data r)) ck)
          (mergeDeepF m) frags q.frags (vObj []) with
      | error e => rw [hfrl] at h; simp at h
      | ok r0 =>
          rw [hfrl] at h
          simp at h
          obtain ⟨fs0, hfs0⟩ := sfrl_vObj _ m frags q.frags [] r0 hfrl
          subst hfs0
          exact sfl_sets m _ data (rootEff data r) k f q.fields fs0 out hmem hfr h

/-- Shape mirroring for expanded fragments: every key of a fragment found
in the registry is present in a successful output. -/
theorem shape_frag_presence (n : Nat) (data : Value) (q : QTree)
    (frags : List (String × QTree)) (r : Option Value) (ck : Option String)
    (out : Value) (name : String) (ft : QTree) (k : String) (f : QField)
    (h : shape n data q frags r ck = Except.ok out)
    (hname : name ∈ q.frags) (hreg : fragLookup name frags = some ft)
    (hmem : (k, f) ∈ ft.fields) (hfr : k ≠ "__fragments") :
    (vLookup out k).isSome := by
  cases n with
  | zero => simp [shape] at h
  | succ m =>
      rw [shape] at h
      cases hfrl : shapeFragsLoop
          (fun t => shape m data t frags (some (rootEff data r)) ck)
          (mergeDeepF m) frags q.frags (vObj []) with
      | error e => rw [hfrl] at h; simp at h
      | ok r0 =>
          rw [hfrl] at h
          simp at h
          obtain ⟨fr', hsh'⟩ := sfrl_extract _ m frags name ft q.frags [] r0 hname hreg hfrl
          obtain ⟨gfs, hgfs⟩ := shape_ok_vObj m data ft frags
            (some (rootEff data r)) ck fr' hsh'
          subst hgfs
          have hpres := shape_presence m data ft frags (some (rootEff data r)) ck
            (vObj gfs) k f hsh' hmem hfr
          obtain ⟨gv, hgv⟩ := Option.isSome_iff_exists.mp (by simpa [vLookup] using hpres)
          have hmemg : (k, gv) ∈ gfs := objLookup_mem k gv gfs hgv
          have hr0 : (vLookup r0 k).isSome :=
            sfrl_sets _ m frags name ft k gv gfs q.frags [] r0 hname hreg hsh' hmemg hfr hfrl
          obtain ⟨fs0, hfs0⟩ := sfrl_vObj _ m frags q.frags [] r0 hfrl
          subst hfs0
          exact sfl_preserve m _ data (rootEff data r) k q.fields fs0 out h hr0

/-- The value stored for a key whose tree keys are free of duplicates: the
per-field value computed by shapeFieldValue at one less fuel. -/
theorem shape_field_value (n : Nat) (data : Value) (q : QTree)
    (frags : List (String × QTree)) (r : Option Value) (ck : Option String)
    (out : Value) (k : String) (f : QField)
    (h : shape (n + 1) data q frags r ck = Except.ok out)
    (hnd : (q.fields.map Prod.fst).Nodup)
    (hmem : (k, f) ∈ q.fields) (hfr : k ≠ "__fragments") :
    ∃ v, shapeFieldValue n
        (fun d t k' => shape n d t frags (some (rootEff data r)) (some k'))
        data (rootEff data r) k f = Except.ok v ∧
      vLookup out k = some v := by
  rw [shape] at h
  cases hfrl : shapeFragsLoop
      (fun t => shape n data t frags (some (rootEff data r)) ck)
      (mergeDeepF n) frags q.frags (vObj []) with
  | error e => rw [hfrl] at h; simp at h
  | ok r0 =>
      rw [hfrl] at h
      simp at h
      obtain ⟨fs0, hfs0⟩ := sfrl_vObj _ n frags q.frags [] r0 hfrl
      subst hfs0
      exact sfl_value n _ data (rootEff data r) k f q.fields fs0 out hnd hmem hfr h

/-! ## Congruence lemmas for the recursion parameters -/

theorem sfrl_congr (f1 f2 : QTree → Except ShapeErr Value)
    (md : Value → Value → Except ShapeErr Value) (frags : List (String × QTree))
    (hf : ∀ t, f1 t = f2 t) :
    ∀ (names : List String) (acc : Value),
    shapeFragsLoop f1 md frags names acc = shapeFragsLoop f2 md frags names acc := by
  intro names
  induction names with
  | nil => intro acc; simp [shapeFragsLoop]
  | cons name rest ih =>
      intro acc
      cases hl : fragLookup name frags with
      | none => rw [shapeFragsLoop, shapeFragsLoop, hl]; exact ih acc
      | some ft =>
          simp only [shapeFragsLoop, hl, hf ft]
          cases f2 ft with
          | error e => rfl
          | ok fr =>
              dsimp only
              cases md acc fr with
              | error e => rfl
              | ok r' => exact ih r'

theorem sfv_congr (n : Nat) (sh : Value → QTree → String → Except ShapeErr Value)
    (data data' root : Value) (k : String) (f : QField)
    (hsafe : safeOf data = safeOf data') :
    shapeFieldValue n sh data root k f = shapeFieldValue n sh data' root k f := by
  cases f with
  | fn e => simp [shapeFieldValue, hsafe]
  | dir d => simp [shapeFieldValue, hsafe]
  | obj t => simp [shapeFieldValue, hsafe]
  | str s => simp [shapeFieldValue, hsafe]
  | other v => simp [shapeFieldValue, hsafe]

theorem sfl_congr_data (n : Nat) (sh : Value → QTree → String → Except ShapeErr Value)
    (data data' root : Value) (hsafe : safeOf data = safeOf data') :
    ∀ (flds : List (String × QField)) (acc : Value),
    shapeFieldsLoop n sh data root flds acc = shapeFieldsLoop n sh data' root flds acc := by
  intro flds
  induction flds with
  | nil => intro acc; simp [shapeFieldsLoop]
  | cons hd tl ih =>
      intro acc
      obtain ⟨k, f⟩ := hd
      by_cases hk : k = "__fragments"
      · simp [shapeFieldsLoop, hk]; exact ih acc
      · simp only [shapeFieldsLoop, hk, if_false]
        rw [sfv_congr n sh data data' root k f hsafe]
        cases shapeFieldValue n sh data' root k f with
        | error e => simp
        | ok v => simp; exact ih _

/-- The contextKey parameter never influences the result: it is threaded
into fragment expansion and replaced for nested descent, but no code path
consults it. -/
theorem shape_ck_irrel (n : Nat) :
    ∀ (data : Value) (q : QTree) (frags : List (String × QTree))
      (r : Option Value) (ck ck' : Option String),
    shape n data q frags r ck = shape n data q frags r ck' := by
  induction n with
  | zero => intro data q frags r ck ck'; simp [shape]
  | succ m ih =>
      intro data q frags r ck ck'
      rw [shape, shape]
      rw [sfrl_congr (fun t => shape m data t frags (some (rootEff data r)) ck)
        (fun t => shape m data t frags (some (rootEff data r)) ck')
        (mergeDeepF m) frags (fun t => ih data t frags _ ck ck') q.frags (vObj [])]

/-- Null or undefined data behaves exactly like an empty object once a
non-nullish root is supplied: the engine only consults data through
safeTarget = data ?? an empty object (and through the root rebinding,
fixed here by the hypothesis). -/
theorem shape_nulldata (n : Nat) :
    ∀ (dN : Value) (q : QTree) (frags : List (String × QTree)) (rv : Value)
      (ck : Option String),
    jsNullish dN = true → jsNullish rv = false →
    shape n dN q frags (some rv) ck = shape n (vObj []) q frags (some rv) ck := by
  induction n with
  | zero => intro dN q frags rv ck _ _; simp [shape]
  | succ m ih =>
      intro dN q frags rv ck hdN hrv
      rw [shape, shape]
      have hroot : rootEff dN (some rv) = rv := by simp [rootEff, hrv]
      have hroot' : rootEff (vObj []) (some rv) = rv := by simp [rootEff, hrv]
      rw [hroot, hroot']
      have hsafe : safeOf dN = safeOf (vObj []) := by
        simp [safeOf, hdN, show jsNullish (vObj []) = false from rfl]
      rw [sfrl_congr (fun t => shape m dN t frags (some rv) ck)
        (fun t => shape m (vObj []) t frags (some rv) ck)
        (mergeDeepF m) frags
        (fun t => ih dN t frags rv ck hdN hrv) q.frags (vObj [])]
      cases shapeFragsLoop (fun t => shape m (vObj []) t frags (some rv) ck)
          (mergeDeepF m) frags q.frags (vObj []) with
      | error e => rfl
      | ok r0 =>
          exact sfl_congr_data m _ dN (vObj []) rv hsafe q.fields r0

/-! ## Which errors can arise where: a thrown TypeError can only come from
fragment merging (or parseArgs on the text path); everything else in the
shaping walk is total up to recursion depth. -/

theorem sam_err (sh : Value → QTree → String → Except ShapeErr Value)
    (t : QTree) (key : String) (e : ShapeErr) :
    ∀ xs, shapeArrayMap sh t key xs = Except.error e →
    ∃ v, sh v t key = Except.error e := by
  intro xs
  induction xs with
  | nil => intro h; simp [shapeArrayMap] at h
  | cons it rest ih =>
      intro h
      rw [shapeArrayMap] at h
      cases hsh : sh it t key with
      | error e' =>
          rw [hsh] at h; simp at h
          exact ⟨it, h ▸ hsh⟩
      | ok v =>
          rw [hsh] at h; simp at h
          cases hrec : shapeArrayMap sh t key rest with
          | error e' =>
              rw [hrec] at h; simp at h
              exact ih (h ▸ hrec)
          | ok l => rw [hrec] at h; simp at h

theorem shapeDirective_err (n : Nat) (sh : Value → QTree → String → Except ShapeErr Value)
    (safe root : Value) (key : String) (d : QDirective) (e : ShapeErr)
    (h : shapeDirective n sh safe root key d = Except.error e)
    (hff : fragFreeFd (QField.dir d) = true) :
    e = ShapeErr.noFuel ∨
      ∃ v t k', fragFreeT t = true ∧ sh v t k' = Except.error e := by
  have hnest : ∀ t, d.nested = some t → fragFreeT t = true := by
    intro t ht
    cases d with
    | mk p sk inc ne fi de tr li s =>
        simp [QDirective.nested] at ht
        subst ht
        simpa [fragFreeFd] using hff
  rw [shapeDirective] at h
  split at h
  · simp at h
  · split at h
    · simp at h
    · cases hdr : dirResolveValue n safe root key d with
      | none => rw [hdr] at h; simp at h; exact Or.inl h.symm
      | some v0 =>
          rw [hdr] at h
          simp only at h
          cases hv2 : applyTransformD d (applyDefault d v0) safe with
          | vArr xs =>
              rw [hv2] at h
              simp only at h
              cases hn : d.nested with
              | some t =>
                  rw [hn] at h
                  simp only at h
                  cases hsm : shapeArrayMap sh t key
                      (limitStage d (skipStage d (filterStage root d xs))) with
                  | error e' =>
                      rw [hsm] at h; simp at h
                      obtain ⟨v, hv⟩ := sam_err sh t key e _ (h ▸ hsm)
                      exact Or.inr ⟨v, t, key, hnest t hn, hv⟩
                  | ok l => rw [hsm] at h; simp at h
              | none => rw [hn] at h; simp at h
          | vObj fs =>
              rw [hv2] at h
              simp only at h
              cases hn : d.nested with
              | some t =>
                  rw [hn] at h
                  simp only at h
                  exact Or.inr ⟨vObj fs, t, key, hnest t hn, h⟩
              | none => rw [hn] at h; simp at h
          | vNull => rw [hv2] at h; simp at h
          | vUndef => rw [hv2] at h; simp at h
          | vBool b => rw [hv2] at h; simp at h
          | vNum x => rw [hv2] at h; simp at h
          | vStr s => rw [hv2] at h; simp at h

theorem sfv_err (n : Nat) (sh : Value → QTree → String → Except ShapeErr Value)
    (data root : Value) (k : String) (f : QField) (e : ShapeErr)
    (h : shapeFieldValue n sh data root k f = Except.error e)
    (hff : fragFreeFd f = true) :
    e = ShapeErr.noFuel ∨
      ∃ v t k', fragFreeT t = true ∧ sh v t k' = Except.error e := by
  cases f with
  | fn ex => simp [shapeFieldValue] at h
  | dir d => exact shapeDirective_err n sh (safeOf data) root k d e h hff
  | obj t =>
      simp only [shapeFieldValue] at h
      exact Or.inr ⟨_, t, k, by simpa [fragFreeFd] using hff, h⟩
  | str s =>
      simp only [shapeFieldValue] at h
      split at h
      · simp at h
      · split at h
        · simp at h
        · cases har : autoResolveF n root s with
          | none => rw [har] at h; simp at h; exact Or.inl h.symm
          | some ar => rw [har] at h; simp at h
  | other v => simp [shapeFieldValue] at h

theorem sfl_err (n : Nat) (sh : Value → QTree → String → Except ShapeErr Value)
    (data root : Value) (e : ShapeErr) :
    ∀ (flds : List (String × QField)) (acc : Value),
    shapeFieldsLoop n sh data root flds acc = Except.error e →
    fragFreeFs flds = true →
    e = ShapeErr.noFuel ∨
      ∃ v t k', fragFreeT t = true ∧ sh v t k' = Except.error e := by
  intro flds
  induction flds with
  | nil => intro acc h; simp [shapeFieldsLoop] at h
  | cons hd tl ih =>
      intro acc h hff
      obtain ⟨k, f⟩ := hd
      have hff1 : fragFreeFd f = true := by
        simp [fragFreeFs] at hff; exact hff.1
      have hff2 : fragFreeFs tl = true := by
        simp [fragFreeFs] at hff; exact hff.2
      by_cases hk : k = "__fragments"
      · simp [shapeFieldsLoop, hk] at h
        exact ih acc h hff2
      · simp [shapeFieldsLoop, hk] at h
        cases hv : shapeFieldValue n sh data root k f with
        | error e' =>
            rw [hv] at h; simp at h
            exact sfv_err n sh data root k f e (h ▸ hv) hff1
        | ok v =>
            rw [hv] at h; simp at h
            exact ih _ h hff2

/-- Fragment-free shaping never throws: the only error kind it can return
is exhaustion of the modelled recursion depth, never the TypeError that a
source run would raise. -/
theorem shape_err_noFuel (n : Nat) :
    ∀ (data : Value) (q : QTree) (frags : List (String × QTree))
      (r : Option Value) (ck : Option String) (e : ShapeErr),
    fragFreeT q = true → shape n data q frags r ck = Except.error e →
    e = ShapeErr.noFuel := by
  induction n with
  | zero =>
      intro data q frags r ck e _ h
      simp [shape] at h
      exact h.symm
  | succ m ih =>
      intro data q frags r ck e hff h
      obtain ⟨fs, fr⟩ := q
      have hfr : fr = [] := by
        simp [fragFreeT] at hff
        exact hff.1
      have hffs : fragFreeFs fs = true := by
        simp [fragFreeT] at hff
        exact hff.2
      subst hfr
      rw [shape] at h
      simp only [QTree.frags, QTree.fields, shapeFragsLoop] at h
      rcases sfl_err m _ data (rootEff data r) e fs (vObj []) h hffs with he | ⟨v, t, k', hft, hsh⟩
      · exact he
      · exact ih v t frags (some (rootEff data r)) (some k') e hft hsh

/-! ## Claim theorems -/

theorem arScan_specSearch (a1 a2 : Value → String → Option Value) (key : String)
    (hp : ∀ v, a1 v key = a2 v key) :
    ∀ l : List Value, arScan a1 key l = specSearch a2 key (l.filter isObjTy) := by
  intro l
  induction l with
  | nil => simp [arScan, specSearch]
  | cons v rest ih =>
      by_cases ho : isObjTy v = true
      · simp only [arScan, ho, if_true, List.filter_cons_of_pos ho, specSearch, hp v]
        cases a2 v key with
        | none => rfl
        | some found =>
            dsimp only
            by_cases hn : isNullV found = true
            · simp [hn, ih]
            · simp [hn]
      · simp only [arScan, ho, if_false, List.filter_cons_of_neg (by simpa using ho)]
        exact ih

theorem autoResolveF_eq_spec (fuel : Nat) :
    ∀ (obj : Value) (key : String),
    autoResolveF fuel obj key = autoResolveSpecF fuel obj key := by
  induction fuel with
  | zero => intro obj key; rfl
  | succ m ih =>
      intro obj key
      rw [autoResolveF, autoResolveSpecF]
      by_cases hn : jsNullish obj = true
      · simp [hn]
      · simp only [hn, if_false]
        by_cases hu : isUndef (jsIndex obj key) = true
        · simp only [hu, Bool.not_true, if_false, directHit, if_pos hu]
          exact arScan_specSearch (autoResolveF m) (autoResolveSpecF m) key
            (fun v => ih v key) (jsOwnEntries obj)
        · simp [hu, directHit]

/-- C9. Auto-resolve is a pre-order depth-first search: autoResolveF (the
embedding of autoResolve, index.ts:36) coincides at every recursion depth
with autoResolveSpecF, the transcription of the claim (direct hit first,
then iterate the own entries in enumeration order restricted to objects
and arrays, recursing into each and keeping the first non-null match, null
when exhausted); and on data (profile: (info: (email: "x@y.com"))) the
bare key email resolves to "x@y.com". -/
theorem c9_autoresolve_preorder_dfs :
    (∀ (fuel : Nat) (obj : Value) (key : String),
      autoResolveF fuel obj key = autoResolveSpecF fuel obj key) ∧
    autoResolveF 3
      (vObj [("profile", vObj [("info", vObj [("email", vStr "x@y.com")])])])
      "email" = some (vStr "x@y.com") := by
  constructor
  · intro fuel obj key
    exact autoResolveF_eq_spec fuel obj key
  · rfl

/-- Auto-resolve diverges on the cyclic store when the key is absent: the
self reference is scanned at every level and no recursion depth completes. -/
theorem arS_diverges :
    ∀ f, autoResolveS f cycStore (SVal.sRef 0) "missing" = none := by
  intro f
  induction f with
  | zero => rfl
  | succ m ih =>
      rw [autoResolveS]
      simp only [show sNullish (SVal.sRef 0) = false from rfl,
        show isSUndef (sIndex cycStore (SVal.sRef 0) "missing") = true from rfl,
        Bool.not_true, if_false,
        show sOwnEntries cycStore (SVal.sRef 0) = [SVal.sStr "root", SVal.sRef 0] from rfl]
      rw [sScan]
      simp only [show sIsObj (SVal.sStr "root") = false from rfl, if_false]
      rw [sScan]
      simp only [show sIsObj (SVal.sRef 0) = true from rfl, if_true]
      rw [ih]
      simp

/-- C3 counterexample. The claim quantifies over every query tree and every
data value; on the cyclic datum (name: "root", self: itself) a query
selecting a key that resolves nowhere directly falls through to
auto-resolve, which recurses through the data, not the query: no recursion
depth whatsoever yields a result, i.e. the source run does not terminate
(concretely, it overflows the call stack).  This refutes termination for
every data value with recursion bounded by the query tree depth. -/
theorem c3_counterexample :
    shapeSDiverges cycStore (SVal.sRef 0) q3bad (SVal.sRef 0) := by
  intro fuel
  cases fuel with
  | zero => rfl
  | succ m =>
      rw [shapeS]
      simp only [q3bad, QTree.fields,
        show (if sNullish (SVal.sRef 0) = true then SVal.sEmptyObj else SVal.sRef 0) =
          SVal.sRef 0 from rfl]
      rw [shapeSLoop]
      simp only [show ("missing" = "__fragments") = False by simp, if_false]
      have hfv : shapeSFieldVal m cycStore
          (fun d t => shapeS m cycStore d t (SVal.sRef 0))
          (SVal.sRef 0) (SVal.sRef 0) "missing" (QField.str "missing") = none := by
        rw [shapeSFieldVal]
        simp only [show sNullish
            (evalNestedFieldS "missing" cycStore (SVal.sRef 0) (SVal.sRef 0)) = true
            from rfl,
          show sNullish (getByPathS cycStore (SVal.sRef 0) "missing") = true from rfl,
          Bool.not_true, if_false]
        rw [arS_diverges m]
        simp
      rw [hfv]

/-- C3 amended. The shaping walk itself recurses only where the query
nests, so on the C3 example the cyclic datum is harmless and the result is
stable at every recursion depth beyond the query depth: for every n, fuel
n+2 shapes (name: "root", self: itself) under query
(name, self: (name)) to (name: "root", self: (name: "root")) — auto-resolve
is never consulted, so the cycle is never traversed.  Termination for every
data value, however, fails (see the counterexample): a field that falls
through to auto-resolve recurses through the data and diverges on a cycle. -/
theorem c3_cyclic_example_query_bounded :
    ∀ n : Nat, shapeS (n + 2) cycStore (SVal.sRef 0) q3good (SVal.sRef 0) =
      some (vObj [("name", vStr "root"), ("self", vObj [("name", vStr "root")])]) := by
  intro n
  rfl

theorem vCoalesce_ne_undef (a : Value) : vCoalesce a vNull ≠ vUndef := by
  unfold vCoalesce
  by_cases h : jsNullish a = true
  · simp [h]
  · rw [if_neg h]
    intro hc
    subst hc
    simp [jsNullish] at h

theorem jsSliceFrom_nonneg (xs : List Value) (i : Int) (h : 0 ≤ i) :
    jsSliceFrom xs (JsNum.int i) = xs.drop i.toNat := by
  simp [jsSliceFrom, not_lt.mpr h]

theorem jsSliceTo_nonneg (xs : List Value) (i : Int) (h : 0 ≤ i) :
    jsSliceTo xs (JsNum.int i) = xs.take i.toNat := by
  simp [jsSliceTo, not_lt.mpr h]

/-- A non-computed field never stores undefined: every other branch ends
in a nullish-coalesce against null, an array, or a recursively shaped
object. -/
theorem sfv_not_undef (n : Nat) (sh : Value → QTree → String → Except ShapeErr Value)
    (data root : Value) (k : String) (f : QField) (v : Value)
    (hsh : ∀ d t k' out, sh d t k' = Except.ok out → ∃ fs, out = vObj fs)
    (hnf : ∀ e, f ≠ QField.fn e)
    (h : shapeFieldValue n sh data root k f = Except.ok v) : v ≠ vUndef := by
  cases f with
  | fn e => exact absurd rfl (hnf e)
  | obj t =>
      simp only [shapeFieldValue] at h
      obtain ⟨fs, hfs⟩ := hsh _ t k v h
      subst hfs; simp
  | str s =>
      simp only [shapeFieldValue] at h
      split at h
      · rename_i hev
        simp at h
        subst h
        intro hc
        rw [hc] at hev
        simp [jsNullish] at hev
      · split at h
        · rename_i hg
          simp at h
          subst h
          intro hc
          rw [hc] at hg
          simp [jsNullish] at hg
        · cases har : autoResolveF n root s with
          | none => rw [har] at h; simp at h
          | some ar =>
              rw [har] at h; simp at h
              subst h
              exact vCoalesce_ne_undef ar
  | other w =>
      simp only [shapeFieldValue] at h
      simp at h
      subst h
      exact vCoalesce_ne_undef _
  | dir d =>
      simp only [shapeFieldValue, shapeDirective] at h
      split at h
      · simp at h; subst h; simp
      · split at h
        · simp at h; subst h; simp
        · cases hdr : dirResolveValue n (safeOf data) root k d with
          | none => rw [hdr] at h; simp at h
          | some v0 =>
              rw [hdr] at h
              simp only at h
              cases hv2 : applyTransformD d (applyDefault d v0) (safeOf data) with
              | vArr xs =>
                  rw [hv2] at h
                  simp only at h
                  cases hn : d.nested with
                  | some t =>
                      rw [hn] at h
                      simp only at h
                      cases hsm : shapeArrayMap sh t k
                          (limitStage d (skipStage d (filterStage root d xs))) with
                      | error e => rw [hsm] at h; simp at h
                      | ok l => rw [hsm] at h; simp at h; subst h; simp
                  | none => rw [hn] at h; simp at h; subst h; simp
              | vObj fs =>
                  rw [hv2] at h
                  simp only at h
                  cases hn : d.nested with
                  | some t =>
                      rw [hn] at h
                      simp only at h
                      obtain ⟨gfs, hgfs⟩ := hsh _ t k v h
                      subst hgfs; simp
                  | none => rw [hn] at h; simp at h; subst h; simp
              | vNull => rw [hv2] at h; simp at h; subst h; exact vCoalesce_ne_undef _
              | vUndef => rw [hv2] at h; simp at h; subst h; exact vCoalesce_ne_undef _
              | vBool b => rw [hv2] at h; simp at h; subst h; exact vCoalesce_ne_undef _
              | vNum x => rw [hv2] at h; simp at h; subst h; exact vCoalesce_ne_undef _
              | vStr s => rw [hv2] at h; simp at h; subst h; exact vCoalesce_ne_undef _

/-- Missing or nullish data under a plain nested query-object field: the
engine substitutes an empty object and recurses on it. -/
theorem shape_obj_missing (n : Nat) (data : Value) (q : QTree)
    (frags : List (String × QTree)) (r : Option Value) (ck : Option String)
    (out : Value) (k : String) (t : QTree)
    (h : shape (n + 1) data q frags r ck = Except.ok out)
    (hnd : (q.fields.map Prod.fst).Nodup)
    (hmem : (k, QField.obj t) ∈ q.fields) (hfr : k ≠ "__fragments")
    (hmiss : jsNullish (jsIndex (safeOf data) k) = true) :
    ∃ inner, shape n (vObj []) t frags (some (rootEff data r)) (some k) = Except.ok inner ∧
      vLookup out k = some inner := by
  obtain ⟨v, hv, hlook⟩ := shape_field_value n data q frags r ck out k (QField.obj t)
    h hnd hmem hfr
  simp only [shapeFieldValue, hmiss, if_pos] at hv
  exact ⟨v, hv, hlook⟩

/-- C1 counterexample. A computed (function) field stores the raw
expression result without a null fallback (index.ts:369): on data
(a: ()), the compiled field x: a.b evaluates a.b to undefined (the member
access succeeds and yields undefined, so no error is thrown and nothing is
caught), and the output holds key x with value undefined — present, but
not null as the claim requires for an unresolved key. -/
theorem c1_counterexample :
    shape 1 (vObj [("a", vObj [])]) (QTree.mk [("x", QField.fn "a.b")] [])
      [] none none = Except.ok (vObj [("x", vUndef)]) ∧
    vUndef ≠ vNull := by
  exact ⟨rfl, by simp⟩

/-- C1 amended.  Shape mirroring holds for key presence: every key of the
query tree, and every key of every fragment found in the registry, is
present in a successful output at the corresponding level (the statement
applies to every call, hence to every recursion level).  Unresolved keys
hold null for every field kind except computed (function) fields, which
store the raw evaluation result and may hold undefined (the
counterexample); for duplicate-free trees no non-function field ever
stores undefined. -/
theorem c1_shape_mirroring :
    ∀ (n : Nat) (data : Value) (q : QTree) (frags : List (String × QTree))
      (r : Option Value) (ck : Option String) (out : Value),
    shape n data q frags r ck = Except.ok out →
    (∀ k f, (k, f) ∈ q.fields → k ≠ "__fragments" → (vLookup out k).isSome) ∧
    (∀ name ft k f, name ∈ q.frags → fragLookup name frags = some ft →
      (k, f) ∈ ft.fields → k ≠ "__fragments" → (vLookup out k).isSome) ∧
    ((q.fields.map Prod.fst).Nodup →
      ∀ k f, (k, f) ∈ q.fields → k ≠ "__fragments" → (∀ e, f ≠ QField.fn e) →
      vLookup out k ≠ some vUndef) := by
  intro n data q frags r ck out h
  refine ⟨fun k f hmem hfr => shape_presence n data q frags r ck out k f h hmem hfr,
    fun name ft k f hname hreg hmem hfr =>
      shape_frag_presence n data q frags r ck out name ft k f h hname hreg hmem hfr,
    ?_⟩
  intro hnd k f hmem hfr hnf
  cases n with
  | zero => simp [shape] at h
  | succ m =>
      obtain ⟨v, hv, hlook⟩ := shape_field_value m data q frags r ck out k f h hnd hmem hfr
      rw [hlook]
      intro hc
      have hvu : v = vUndef := by simpa using hc
      subst hvu
      exact sfv_not_undef m _ data (rootEff data r) k f vUndef
        (fun d t k' out' hout => shape_ok_vObj m d t frags (some (rootEff data r))
          (some k') out' hout)
        hnf hv rfl

/-- C1 witness for the amended theorem, at data (a: 1), a query with field
a and a spread of fragment fr = (b), registry containing fr. -/
theorem c1_witness :
    (vLookup (vObj [("b", vNull), ("a", vNum 1)]) "a").isSome = true ∧
    (vLookup (vObj [("b", vNull), ("a", vNum 1)]) "b").isSome = true ∧
    vLookup (vObj [("b", vNull), ("a", vNum 1)]) "a" ≠ some vUndef := by
  have h := c1_shape_mirroring 3 (vObj [("a", vNum 1)])
    (QTree.mk [("a", QField.str "a")] ["fr"])
    [("fr", QTree.mk [("b", QField.str "b")] [])] none none
    (vObj [("b", vNull), ("a", vNum 1)]) rfl
  refine ⟨h.1 "a" (QField.str "a") (by simp [QTree.fields]) (by simp),
    h.2.1 "fr" (QTree.mk [("b", QField.str "b")] []) "b" (QField.str "b")
      (by simp [QTree.frags]) rfl (by simp [QTree.fields]) (by simp),
    h.2.2 (by simp [QTree.fields]) "a" (QField.str "a") (by simp [QTree.fields])
      (by simp) (fun e => by simp)⟩

/-- C2 counterexample. parseArgs (index.ts:95) calls v.replace on the
second piece of the colon split; for a block argument list containing an
argument without a colon-separated value whose name is not limit or skip —
here the single argument "filter" — that piece is undefined and the call
throws a TypeError, which nothing catches: shape raises on the query text
posts(filter) followed by an opening brace.  This refutes never-raises for
every query text. -/
theorem c2_counterexample :
    parseQuery "posts(filter) \x7b" = Except.error ShapeErr.typeError ∧
    shapeText 5 (vObj []) "posts(filter) \x7b" [] = Except.error ShapeErr.typeError := by
  exact ⟨rfl, rfl⟩

/-- C2 amended.  Shaping a pre-compiled, deeply fragment-free query tree
never throws: the only error the embedding can return is exhaustion of the
modelled recursion depth, never the TypeError that models a raised
exception — expression, resolution and per-field failures are all absorbed.
On the text path the compiler is lenient for unrecognized syntax: the
malformed query of the repository test (an unterminated block containing
the unrecognized line department followed by an opening brace and name) is
compiled silently and shaped without raising.  What remains of the original
claim is cut down by the counterexamples: parseArgs throws on a valueless
non-limit/skip block argument, and fragment merging can throw when a
fragment value that is an object lands on an accumulated truthy
non-object. -/
theorem c2_never_raises :
    (∀ (n : Nat) (data : Value) (q : QTree) (frags : List (String × QTree))
      (r : Option Value) (ck : Option String) (e : ShapeErr),
      fragFreeT q = true → shape n data q frags r ck = Except.error e →
      e = ShapeErr.noFuel) ∧
    exceptOk (parseQuery "user \x7b\n fullName: user.firstName\n department \x7b name\n") = true ∧
    exceptOk (shapeText 9 (vObj [("user", vObj [("firstName", vStr "John")])])
      "user \x7b\n fullName: user.firstName\n department \x7b name\n" []) = true := by
  refine ⟨?_, rfl, rfl⟩
  intro n data q frags r ck e hff h
  exact shape_err_noFuel n data q frags r ck e hff h

/-- C2 witness: the amended theorem applied at depth 0 on the empty tree,
where the fragment-freedom hypothesis and the error hypothesis hold
concretely. -/
theorem c2_witness :
    fragFreeT (QTree.mk [] []) = true ∧ ShapeErr.noFuel = ShapeErr.noFuel := by
  exact ⟨rfl, c2_never_raises.1 0 vNull (QTree.mk [] []) [] none none
    ShapeErr.noFuel rfl rfl⟩

/-- C10. Null-data totality: shaping null or undefined data substitutes an
empty object as the lookup target — the result coincides with shaping an
empty object outright whenever a non-nullish root is threaded — the output
still contains every query key, and a nullish value under a plain nested
query-object field is replaced by an empty object before recursion. -/
theorem c10_null_data_totality :
    (∀ (n : Nat) (q : QTree) (frags : List (String × QTree)) (out : Value)
      (k : String) (f : QField),
      shape n vNull q frags none none = Except.ok out →
      (k, f) ∈ q.fields → k ≠ "__fragments" → (vLookup out k).isSome) ∧
    (∀ (n : Nat) (dN : Value) (q : QTree) (frags : List (String × QTree))
      (rv : Value) (ck : Option String),
      jsNullish dN = true → jsNullish rv = false →
      shape n dN q frags (some rv) ck = shape n (vObj []) q frags (some rv) ck) ∧
    (∀ (n : Nat) (data : Value) (q : QTree) (frags : List (String × QTree))
      (r : Option Value) (ck : Option String) (out : Value) (k : String) (t : QTree),
      shape (n + 1) data q frags r ck = Except.ok out →
      (q.fields.map Prod.fst).Nodup → (k, QField.obj t) ∈ q.fields →
      k ≠ "__fragments" → jsNullish (jsIndex (safeOf data) k) = true →
      ∃ inner, shape n (vObj []) t frags (some (rootEff data r)) (some k) =
        Except.ok inner ∧ vLookup out k = some inner) := by
  refine ⟨?_, ?_, ?_⟩
  · intro n q frags out k f h hmem hfr
    exact shape_presence n vNull q frags none none out k f h hmem hfr
  · intro n dN q frags rv ck hdN hrv
    exact shape_nulldata n dN q frags rv ck hdN hrv
  · intro n data q frags r ck out k t h hnd hmem hfr hmiss
    exact shape_obj_missing n data q frags r ck out k t h hnd hmem hfr hmiss

/-- C10 witness: shaping null data over the query (a) keeps key a (with
value null); shaping undefined data with root (x: 1) equals shaping an
empty object; and a missing nested object recurses on an empty object. -/
theorem c10_witness :
    (vLookup (vObj [("a", vNull)]) "a").isSome = true ∧
    shape 2 vUndef (QTree.mk [("a", QField.str "a")] []) [] (some (vObj [("x", vNum 1)]))
      none = shape 2 (vObj []) (QTree.mk [("a", QField.str "a")] []) []
      (some (vObj [("x", vNum 1)])) none ∧
    (∃ inner, shape 2 (vObj []) (QTree.mk [("b", QField.str "b")] []) []
        (some (rootEff (vObj []) (Option.none : Option Value))) (some "a") =
        Except.ok inner ∧
      vLookup (vObj [("a", vObj [("b", vNull)])]) "a" = some inner) := by
  refine ⟨?_, ?_, ?_⟩
  · exact c10_null_data_totality.1 2 (QTree.mk [("a", QField.str "a")] []) []
      (vObj [("a", vNull)]) "a" (QField.str "a") rfl (by simp [QTree.fields]) (by simp)
  · exact c10_null_data_totality.2.1 2 vUndef (QTree.mk [("a", QField.str "a")] [])
      [] (vObj [("x", vNum 1)]) none rfl rfl
  · exact c10_null_data_totality.2.2 2 (vObj [])
      (QTree.mk [("a", QField.obj (QTree.mk [("b", QField.str "b")] []))] []) [] none none
      (vObj [("a", vObj [("b", vNull)])]) "a" (QTree.mk [("b", QField.str "b")] [])
      rfl (by simp [QTree.fields]) (by simp [QTree.fields]) (by simp) rfl

/-- The directive pipeline on an array-valued path with filter, skip and
limit set (and nothing else): filter by truthiness of the filter
expression, then drop, then take. -/
theorem shapeDirective_pipeline (n : Nat)
    (sh : Value → QTree → String → Except ShapeErr Value)
    (safe root : Value) (k p f : String) (sk lm : Int) (xs : List Value)
    (hp : p ≠ "") (hf : f ≠ "")
    (hsplit : (strSplitOnStr "||" p).map strTrim = [p])
    (hg : getByPath safe p = vArr xs) (hsk : 0 ≤ sk) (hlm : 0 ≤ lm) :
    shapeDirective n sh safe root k
      (QDirective.mk (some p) none none none (some f) none none
        (some (JsNum.int lm)) (some (JsNum.int sk))) =
    Except.ok (vArr (((xs.filter
      (fun it => jsTruthy (evalNestedField f it root))).drop sk.toNat).take lm.toNat)) := by
  rw [shapeDirective]
  rw [show dirSkipOn (QDirective.mk (some p) none none none (some f) none none
    (some (JsNum.int lm)) (some (JsNum.int sk))) safe root = false from rfl]
  rw [show dirInclBlocked (QDirective.mk (some p) none none none (some f) none none
    (some (JsNum.int lm)) (some (JsNum.int sk))) safe root = false from rfl]
  simp only [if_false, Bool.false_eq_true]
  rw [dirResolveValue]
  simp only [QDirective.path, if_pos hp, hsplit]
  rw [pathChainLoop, pathAltValue, hg]
  simp only [show jsNullish (vArr xs) = false from rfl, Bool.not_false, if_true]
  simp only [applyDefault, applyTransformD, QDirective.transform, QDirective.defaultV,
    show jsNullish (vArr xs) = false from rfl]
  simp only [Bool.false_eq_true, if_false]
  simp only [filterStage, skipStage, limitStage, QDirective.filter, QDirective.skip,
    QDirective.limit, QDirective.nested, if_pos hf]
  rw [jsSliceFrom_nonneg _ sk hsk, jsSliceTo_nonneg _ lm hlm]

/-- C4 counterexample. The array filter keeps items whose filter expression
is truthy, not strictly true (index.ts:433 wraps the evaluation in a double
negation): with items ((v: 1), (v: 0)) and filter expression v — which
evaluates to the numbers 1 and 0, never to true — the code keeps (v: 1),
while the claimed take(drop(select(...)), ...) with a strictly-true filter
keeps nothing. -/
theorem c4_counterexample :
    shape 1 (vObj [("list", vArr [vObj [("v", vNum 1)], vObj [("v", vNum 0)]])])
      (QTree.mk [("k", QField.dir (QDirective.mk (some "list") none none none
        (some "v") none none (some (JsNum.int 9)) (some (JsNum.int 0))))] [])
      [] none none =
      Except.ok (vObj [("k", vArr [vObj [("v", vNum 1)]])]) ∧
    ((strictTrueSelect "v"
        (vObj [("list", vArr [vObj [("v", vNum 1)], vObj [("v", vNum 0)]])])
        [vObj [("v", vNum 1)], vObj [("v", vNum 0)]]).drop 0).take 9 = [] ∧
    [vObj [("v", vNum 1)]] ≠ ([] : List Value) := by
  exact ⟨rfl, rfl, by simp⟩

/-- C4 amended.  Array pipeline order: for a directive field whose path
resolves on the current data to an array and which carries filter, skip
and limit (with non-negative counts), the emitted array equals
take(drop(select(array, filterPred), skip), limit) in that exact order,
where the filter keeps exactly the items for which the filter expression,
evaluated with the item as the data scope, is truthy (strict truth is the
one correction forced by the counterexample). -/
theorem c4_pipeline_order :
    ∀ (n : Nat) (data : Value) (q : QTree) (frags : List (String × QTree))
      (r : Option Value) (ck : Option String) (out : Value) (k p f : String)
      (sk lm : Int) (xs : List Value),
    shape (n + 1) data q frags r ck = Except.ok out →
    (q.fields.map Prod.fst).Nodup →
    (k, QField.dir (QDirective.mk (some p) none none none (some f) none none
      (some (JsNum.int lm)) (some (JsNum.int sk)))) ∈ q.fields →
    k ≠ "__fragments" → p ≠ "" → f ≠ "" →
    (strSplitOnStr "||" p).map strTrim = [p] →
    getByPath (safeOf data) p = vArr xs → 0 ≤ sk → 0 ≤ lm →
    vLookup out k = some (vArr (((xs.filter
      (fun it => jsTruthy (evalNestedField f it (rootEff data r)))).drop
        sk.toNat).take lm.toNat)) := by
  intro n data q frags r ck out k p f sk lm xs h hnd hmem hfr hp hf hsplit hg hsk hlm
  obtain ⟨v, hv, hlook⟩ := shape_field_value n data q frags r ck out k _ h hnd hmem hfr
  rw [hlook]
  simp only [shapeFieldValue] at hv
  rw [shapeDirective_pipeline n _ (safeOf data) (rootEff data r) k p f sk lm xs
    hp hf hsplit hg hsk hlm] at hv
  simp at hv
  rw [hv]

/-- C4 witness: the pipeline example of the specification — five items,
filter v > 1, skip 1, limit 2 — yields the items with v = 3 and v = 4. -/
theorem c4_witness :
    (0 : Int) ≤ 1 ∧ (0 : Int) ≤ 2 ∧
    vLookup (vObj [("k", vArr [vObj [("v", vNum 3)], vObj [("v", vNum 4)]])]) "k" =
      some (vArr [vObj [("v", vNum 3)], vObj [("v", vNum 4)]]) := by
  refine ⟨by decide, by decide, ?_⟩
  have h := c4_pipeline_order 1
    (vObj [("list", vArr [vObj [("v", vNum 1)], vObj [("v", vNum 2)],
      vObj [("v", vNum 3)], vObj [("v", vNum 4)], vObj [("v", vNum 5)]])])
    (QTree.mk [("k", QField.dir (QDirective.mk (some "list") none none none
      (some "v > 1") none none (some (JsNum.int 2)) (some (JsNum.int 1))))] [])
    [] none none
    (vObj [("k", vArr [vObj [("v", vNum 3)], vObj [("v", vNum 4)]])])
    "k" "list" "v > 1" 1 2
    [vObj [("v", vNum 1)], vObj [("v", vNum 2)], vObj [("v", vNum 3)],
      vObj [("v", vNum 4)], vObj [("v", vNum 5)]]
    rfl (by simp [QTree.fields]) (by simp [QTree.fields]) (by simp)
    (by simp) (by simp) rfl rfl (by decide) (by decide)
  rw [h]
  rfl

/-- C5 counterexample. A string Literal field is resolved by expression
evaluation first (index.ts:466), and the with-scoping of the evaluator
gives the root's properties precedence over the current data's: inside the
nested block inner, the field x resolves to the root's x = 2, while the
claimed order — Path Resolver against the current data first, never
expression evaluation — would give the current data's x = 1. -/
theorem c5_counterexample :
    shape 2 (vObj [("x", vNum 2), ("inner", vObj [("x", vNum 1)])])
      (QTree.mk [("inner", QField.obj (QTree.mk [("x", QField.str "x")] []))] [])
      [] none none =
      Except.ok (vObj [("inner", vObj [("x", vNum 2)])]) ∧
    literalResolveSpec 5 (vObj [("x", vNum 1)])
      (vObj [("x", vNum 2), ("inner", vObj [("x", vNum 1)])]) "x" = some (vNum 1) ∧
    vNum 2 ≠ vNum 1 := by
  exact ⟨rfl, rfl, by simp⟩

/-- C5 amended.  Literal resolution order as the code has it: a string
Literal field is resolved by the Expression Evaluator first (whose scope
gives root properties precedence), then — only if that was nullish — by the
Path Resolver against the current data, then by Auto-Resolve against the
root (coalesced to null); there is no Path Resolver step against the root
in this chain. -/
theorem c5_literal_resolution :
    ∀ (n : Nat) (data : Value) (q : QTree) (frags : List (String × QTree))
      (r : Option Value) (ck : Option String) (out : Value) (k s : String),
    shape (n + 1) data q frags r ck = Except.ok out →
    (q.fields.map Prod.fst).Nodup → (k, QField.str s) ∈ q.fields →
    k ≠ "__fragments" →
    (jsNullish (evalNestedField s (safeOf data) (rootEff data r)) = false →
      vLookup out k = some (evalNestedField s (safeOf data) (rootEff data r))) ∧
    (jsNullish (evalNestedField s (safeOf data) (rootEff data r)) = true →
      jsNullish (getByPath (safeOf data) s) = false →
      vLookup out k = some (getByPath (safeOf data) s)) ∧
    (jsNullish (evalNestedField s (safeOf data) (rootEff data r)) = true →
      jsNullish (getByPath (safeOf data) s) = true →
      ∃ ar, autoResolveF n (rootEff data r) s = some ar ∧
        vLookup out k = some (vCoalesce ar vNull)) := by
  intro n data q frags r ck out k s h hnd hmem hfr
  obtain ⟨v, hv, hlook⟩ := shape_field_value n data q frags r ck out k _ h hnd hmem hfr
  simp only [shapeFieldValue] at hv
  refine ⟨?_, ?_, ?_⟩
  · intro hev
    rw [hev] at hv
    simp at hv
    rw [hlook, hv]
  · intro hev hg
    rw [hev, hg] at hv
    simp at hv
    rw [hlook, hv]
  · intro hev hg
    rw [hev, hg] at hv
    simp at hv
    cases har : autoResolveF n (rootEff data r) s with
    | none => rw [har] at hv; simp at hv
    | some ar =>
        rw [har] at hv
        simp at hv
        exact ⟨ar, rfl, by rw [hlook, hv]⟩

/-- C5 witness: on data (x: 1) with query field k: the bare literal x, the
expression evaluator resolves first and the output holds 1. -/
theorem c5_witness :
    jsNullish (evalNestedField "x" (safeOf (vObj [("x", vNum 1)]))
      (rootEff (vObj [("x", vNum 1)]) none)) = false ∧
    vLookup (vObj [("k", vNum 1)]) "k" =
      some (evalNestedField "x" (safeOf (vObj [("x", vNum 1)]))
        (rootEff (vObj [("x", vNum 1)]) none)) := by
  refine ⟨rfl, ?_⟩
  exact (c5_literal_resolution 1 (vObj [("x", vNum 1)])
    (QTree.mk [("k", QField.str "x")] []) [] none none
    (vObj [("k", vNum 1)]) "k" "x" rfl (by simp [QTree.fields])
    (by simp [QTree.fields]) (by simp)).1 rfl

/-- C6 counterexample. No parent-key alias is injected into the expression
scope: inside block b (data (a: (b: (c: 5)))), the computed field x: b.c
cannot resolve b — it is neither a root top-level key nor a key of the
current data — so the code yields null, whereas the claimed semantics
(the key b bound to the current data value) yields 5. -/
theorem c6_counterexample :
    shape 3 (vObj [("a", vObj [("b", vObj [("c", vNum 5)])])])
      (QTree.mk [("a", QField.obj (QTree.mk [("b", QField.obj
        (QTree.mk [("x", QField.fn "b.c")] []))] []))] []) [] none none =
      Except.ok (vObj [("a", vObj [("b", vObj [("x", vNull)])])]) ∧
    evalWithParentScope "b.c" (vObj [("c", vNum 5)])
      (vObj [("a", vObj [("b", vObj [("c", vNum 5)])])]) "b" = vNum 5 ∧
    vNull ≠ vNum 5 := by
  exact ⟨rfl, rfl, by simp⟩

/-- C6 amended.  The contextKey parameter is threaded but never consulted:
the shaping result is identical for any two context keys, so no parent-key
binding is introduced by recursion.  What makes parent-qualified
expressions such as user.isGuest work inside block user is the root
binding of the evaluator scope: root properties are in scope at every
level and shadow current-data properties (second and third conjuncts: a
bare identifier present in both resolves to the root's value, and k.field
inside block k resolves through the root's top-level k, not through the
current data). -/
theorem c6_no_parent_key_injection :
    (∀ (n : Nat) (data : Value) (q : QTree) (frags : List (String × QTree))
      (r : Option Value) (ck ck' : Option String),
      shape n data q frags r ck = shape n data q frags r ck') ∧
    evalNestedField "k" (vObj [("k", vNum 1)]) (vObj [("k", vNum 2)]) = vNum 2 ∧
    evalNestedField "k.f" (vObj [("f", vNum 9)])
      (vObj [("k", vObj [("f", vNum 7)])]) = vNum 7 := by
  exact ⟨fun n data q frags r ck ck' => shape_ck_irrel n data q frags r ck ck', rfl, rfl⟩

/-- C7 counterexample. A directive field that expects an object (nested is
set) but finds the scalar 5 emits the scalar unchanged (index.ts:449), not
null and not an empty array as the claim states. -/
theorem c7_counterexample :
    shape 2 (vObj [("a", vNum 5)])
      (QTree.mk [("a", QField.dir (QDirective.mk none none none
        (some (QTree.mk [("b", QField.str "b")] [])) none none none none none))] [])
      [] none none = Except.ok (vObj [("a", vNum 5)]) ∧
    vNum 5 ≠ vNull ∧ vNum 5 ≠ vArr [] := by
  exact ⟨rfl, by simp, by simp⟩

/-- C7 amended.  Structural mismatches are absorbed without an exception,
but by passthrough, not by null or an empty array: a directive expecting
an object or array (nested set) whose resolved value is a scalar emits the
scalar coalesced to null (first conjunct); a plain nested query-object
field whose data is missing or nullish recurses on a fresh empty object,
producing the expected shape with null leaves (second conjunct). -/
theorem c7_structural_mismatch :
    (∀ (n : Nat) (data : Value) (q : QTree) (frags : List (String × QTree))
      (r : Option Value) (ck : Option String) (out : Value) (k : String)
      (t : QTree) (v0 : Value),
      shape (n + 1) data q frags r ck = Except.ok out →
      (q.fields.map Prod.fst).Nodup →
      (k, QField.dir (QDirective.mk none none none (some t) none none none none
        none)) ∈ q.fields →
      k ≠ "__fragments" →
      dirResolveValue n (safeOf data) (rootEff data r) k
        (QDirective.mk none none none (some t) none none none none none) = some v0 →
      (∀ xs, v0 ≠ vArr xs) → (∀ fs, v0 ≠ vObj fs) →
      vLookup out k = some (vCoalesce v0 vNull)) ∧
    (∀ (n : Nat) (data : Value) (q : QTree) (frags : List (String × QTree))
      (r : Option Value) (ck : Option String) (out : Value) (k : String) (t : QTree),
      shape (n + 1) data q frags r ck = Except.ok out →
      (q.fields.map Prod.fst).Nodup → (k, QField.obj t) ∈ q.fields →
      k ≠ "__fragments" → jsNullish (jsIndex (safeOf data) k) = true →
      ∃ inner, shape n (vObj []) t frags (some (rootEff data r)) (some k) =
        Except.ok inner ∧ vLookup out k = some inner) := by
  constructor
  · intro n data q frags r ck out k t v0 h hnd hmem hfr hres hna hno
    obtain ⟨v, hv, hlook⟩ := shape_field_value n data q frags r ck out k _ h hnd hmem hfr
    simp only [shapeFieldValue, shapeDirective] at hv
    rw [show dirSkipOn (QDirective.mk none none none (some t) none none none none none)
      (safeOf data) (rootEff data r) = false from rfl] at hv
    rw [show dirInclBlocked (QDirective.mk none none none (some t) none none none none
      none) (safeOf data) (rootEff data r) = false from rfl] at hv
    simp only [Bool.false_eq_true, if_false] at hv
    rw [hres] at hv
    simp only [applyDefault, applyTransformD, QDirective.transform,
      QDirective.defaultV, ite_self] at hv
    cases v0 with
    | vArr xs => exact absurd rfl (hna xs)
    | vObj fs => exact absurd rfl (hno fs)
    | vNull => simp at hv; rw [hlook, ← hv]
    | vUndef => simp at hv; rw [hlook, ← hv]
    | vBool b => simp at hv; rw [hlook, ← hv]
    | vNum x => simp at hv; rw [hlook, ← hv]
    | vStr s => simp at hv; rw [hlook, ← hv]
  · intro n data q frags r ck out k t h hnd hmem hfr hmiss
    exact shape_obj_missing n data q frags r ck out k t h hnd hmem hfr hmiss

/-- C7 witness: data (a: 5) under a block a (b) emits 5 unchanged; data ()
under a plain nested field a (b) recurses on an empty object and yields
(a: (b: null)). -/
theorem c7_witness :
    dirResolveValue 1 (safeOf (vObj [("a", vNum 5)]))
      (rootEff (vObj [("a", vNum 5)]) none) "a"
      (QDirective.mk none none none (some (QTree.mk [("b", QField.str "b")] []))
        none none none none none) = some (vNum 5) ∧
    vLookup (vObj [("a", vNum 5)]) "a" = some (vCoalesce (vNum 5) vNull) ∧
    (∃ inner, shape 2 (vObj []) (QTree.mk [("b", QField.str "b")] []) []
        (some (rootEff (vObj []) (Option.none : Option Value))) (some "a") =
        Except.ok inner ∧
      vLookup (vObj [("a", vObj [("b", vNull)])]) "a" = some inner) := by
  refine ⟨rfl, ?_, ?_⟩
  · exact (c7_structural_mismatch.1 1 (vObj [("a", vNum 5)])
      (QTree.mk [("a", QField.dir (QDirective.mk none none none
        (some (QTree.mk [("b", QField.str "b")] [])) none none none none none))] [])
      [] none none (vObj [("a", vNum 5)]) "a"
      (QTree.mk [("b", QField.str "b")] []) (vNum 5)
      rfl (by simp [QTree.fields]) (by simp [QTree.fields]) (by simp) rfl
      (fun xs => by simp) (fun fs => by simp))
  · exact (c7_structural_mismatch.2 2 (vObj [])
      (QTree.mk [("a", QField.obj (QTree.mk [("b", QField.str "b")] []))] []) [] none
      none (vObj [("a", vObj [("b", vNull)])]) "a" (QTree.mk [("b", QField.str "b")] [])
      rfl (by simp [QTree.fields]) (by simp [QTree.fields]) (by simp) rfl)

/-- C8 counterexample. The code's fallback chain contains a Path Resolver
step against the root (index.ts:404) that the claim omits: with data
(a: ["z"], inner: ()) and, inside block inner, a directive with path a.0,
the current data has nothing, the root path lookup yields "z", and the
output holds "z"; the claimed chain (data path, then Auto-Resolve, then
expression evaluation — a.0 is a syntax error to the evaluator) yields
null. -/
theorem c8_counterexample :
    shape 3 (vObj [("a", vArr [vStr "z"]), ("inner", vObj [])])
      (QTree.mk [("inner", QField.obj (QTree.mk [("k", QField.dir
        (QDirective.mk (some "a.0") none none none none none none none none))] []))]
        []) [] none none =
      Except.ok (vObj [("inner", vObj [("k", vStr "z")])]) ∧
    fallbackAltSpec 5 (vObj []) (vObj [("a", vArr [vStr "z"]), ("inner", vObj [])])
      "a.0" = some vNull ∧
    vStr "z" ≠ vNull := by
  exact ⟨by with_unfolding_all rfl, rfl, by simp⟩

/-- C8 amended.  Fallback chain: the ||-separated alternatives are
evaluated left to right with the first non-nullish result short-circuiting
(first conjunct characterizes the loop); each alternative is resolved via
path lookup on the current data, then path lookup on the root — the step
the original claim omitted, made explicit by the second conjunct — then
Auto-Resolve on the root, then expression evaluation (which is what yields
the literal string for a quoted segment); a directive with such a path
emits the scalar chain value coalesced to null (third conjunct); and the
specification example a || b || quoted X against (a: null, b: undefined)
yields "X" (fourth conjunct). -/
theorem c8_fallback_chain :
    (∀ (n : Nat) (safe root : Value) (p : String) (rest : List String),
      pathChainLoop n safe root (p :: rest) =
        match pathAltValue n safe root p with
        | none => none
        | some v =>
            if jsNullish v = true ∧ rest ≠ [] then pathChainLoop n safe root rest
            else some v) ∧
    (∀ (n : Nat) (safe root : Value) (part : String),
      jsNullish (getByPath safe part) = true →
      jsNullish (getByPath root part) = false →
      pathAltValue n safe root part = some (getByPath root part)) ∧
    (∀ (n : Nat) (data : Value) (q : QTree) (frags : List (String × QTree))
      (r : Option Value) (ck : Option String) (out : Value) (k p : String)
      (v0 : Value),
      shape (n + 1) data q frags r ck = Except.ok out →
      (q.fields.map Prod.fst).Nodup →
      (k, QField.dir (QDirective.mk (some p) none none none none none none none
        none)) ∈ q.fields →
      k ≠ "__fragments" → p ≠ "" →
      pathChainLoop n (safeOf data) (rootEff data r)
        ((strSplitOnStr "||" p).map strTrim) = some v0 →
      (∀ xs, v0 ≠ vArr xs) → (∀ fs, v0 ≠ vObj fs) →
      vLookup out k = some (vCoalesce v0 vNull)) ∧
    shape 2 (vObj [("a", vNull), ("b", vUndef)])
      (QTree.mk [("k", QField.dir (QDirective.mk (some "a || b || \"X\"") none none
        none none none none none none))] []) [] none none =
      Except.ok (vObj [("k", vStr "X")]) := by
  refine ⟨?_, ?_, ?_, by with_unfolding_all rfl⟩
  · intro n safe root p rest
    cases rest with
    | nil =>
        cases h : pathAltValue n safe root p with
        | none => simp only [pathChainLoop, h]
        | some v => simp only [pathChainLoop, h]; simp
    | cons q rest' =>
        cases h : pathAltValue n safe root p with
        | none => simp only [pathChainLoop, h]
        | some v =>
            simp only [pathChainLoop, h]
            by_cases hv : jsNullish v = true
            · simp [hv]
            · simp [hv]
  · intro n safe root part hds hrs
    rw [pathAltValue]
    simp [hds, hrs]
  · intro n data q frags r ck out k p v0 h hnd hmem hfr hp hchain hna hno
    obtain ⟨v, hv, hlook⟩ := shape_field_value n data q frags r ck out k _ h hnd hmem hfr
    simp only [shapeFieldValue, shapeDirective] at hv
    rw [show dirSkipOn (QDirective.mk (some p) none none none none none none none none)
      (safeOf data) (rootEff data r) = false from rfl] at hv
    rw [show dirInclBlocked (QDirective.mk (some p) none none none none none none none
      none) (safeOf data) (rootEff data r) = false from rfl] at hv
    simp only [Bool.false_eq_true, if_false] at hv
    rw [dirResolveValue] at hv
    simp only [QDirective.path, if_pos hp] at hv
    rw [hchain] at hv
    simp only [applyDefault, applyTransformD, QDirective.transform,
      QDirective.defaultV, ite_self] at hv
    cases v0 with
    | vArr xs => exact absurd rfl (hna xs)
    | vObj fs => exact absurd rfl (hno fs)
    | vNull => simp at hv; rw [hlook, ← hv]
    | vUndef => simp at hv; rw [hlook, ← hv]
    | vBool b => simp at hv; rw [hlook, ← hv]
    | vNum x => simp at hv; rw [hlook, ← hv]
    | vStr s => simp at hv; rw [hlook, ← hv]

/-- C8 witness: the root-path step and the scalar emission applied on the
a.0 example — inside block inner the chain resolves a.0 through the root
to "z", and the output holds "z". -/
theorem c8_witness :
    jsNullish (getByPath (vObj []) "a.0") = true ∧
    jsNullish (getByPath (vObj [("a", vArr [vStr "z"]), ("inner", vObj [])]) "a.0") =
      false ∧
    pathAltValue 4 (vObj []) (vObj [("a", vArr [vStr "z"]), ("inner", vObj [])]) "a.0" =
      some (getByPath (vObj [("a", vArr [vStr "z"]), ("inner", vObj [])]) "a.0") ∧
    vLookup (vObj [("k", vStr "z")]) "k" = some (vCoalesce (vStr "z") vNull) := by
  refine ⟨by with_unfolding_all rfl, by with_unfolding_all rfl, ?_, ?_⟩
  · exact c8_fallback_chain.2.1 4 (vObj [])
      (vObj [("a", vArr [vStr "z"]), ("inner", vObj [])]) "a.0"
      (by with_unfolding_all rfl) (by with_unfolding_all rfl)
  · exact c8_fallback_chain.2.2.1 1 (vObj [])
      (QTree.mk [("k", QField.dir (QDirective.mk (some "a.0") none none none none none
        none none none))] []) [] (some (vObj [("a", vArr [vStr "z"])])) none
      (vObj [("k", vStr "z")]) "k" "a.0" (vStr "z")
      (by with_unfolding_all rfl) (by simp [QTree.fields]) (by simp [QTree.fields])
      (by simp) (by simp) (by with_unfolding_all rfl)
      (fun xs => by simp) (fun fs => by simp)
